import Mathlib

/-!
The generator `setstr`: a verification development for `parse.go`.

The development embeds the generator of `github.com/paulstuart/setstr` in Lean:

* the Go library functions `parse.go` calls (`strings.TrimRight`, `strings.TrimLeft`,
  `strings.Trim`, `strings.Split`, `path.Base`, `sort.Sort`, `regexp.FindStringSubmatch`),
  each as an executable function on strings;
* the tag extractor `tagName` with the regular expression `re`;
* the declaration walker and the import resolver of `ParseFile`;
* the output name computed by `fileSaver`, and the text that `fileSaver`, `SetField`,
  `PtrFunc` and `setStr` write (`fmt.Fprintf` for the verb `%s`);
* the run of the statement generated for an `int` field, over a model of `strconv.Atoi`.

Strings are Lean `String`s, processed through their character lists.  A Go `map` is an
association list with distinct keys; where the Go code ranges over a map the order of the
iteration is a parameter of the model.  A Go `panic` is an explicit outcome.
-/

set_option autoImplicit false

namespace Setstr

/-! ## Go library functions -/

/-- Go's `a < b` on strings: lexicographic comparison (bytewise on UTF-8, which is the
    order of the code points). -/
def strLess : List Char → List Char → Bool
  | [], [] => false
  | [], _ :: _ => true
  | _ :: _, [] => false
  | a :: as, b :: bs => if a < b then true else if b < a then false else strLess as bs

/-- Core of `strings.TrimLeft`: drop the leading characters contained in the cutset. -/
def trimLeftChars (cutset : List Char) : List Char → List Char
  | [] => []
  | c :: cs => if cutset.contains c then trimLeftChars cutset cs else c :: cs

/-- Core of `strings.TrimRight`: drop the trailing characters contained in the cutset. -/
def trimRightChars (cutset : List Char) (s : List Char) : List Char :=
  (trimLeftChars cutset s.reverse).reverse

/-- Go `strings.TrimLeft(s, cutset)`. -/
def strings.TrimLeft (s cutset : String) : String :=
  ⟨trimLeftChars cutset.data s.data⟩

/-- Go `strings.TrimRight(s, cutset)`. -/
def strings.TrimRight (s cutset : String) : String :=
  ⟨trimRightChars cutset.data s.data⟩

/-- Go `strings.Trim(s, cutset)`: both ends. -/
def strings.Trim (s cutset : String) : String :=
  ⟨trimRightChars cutset.data (trimLeftChars cutset.data s.data)⟩

/-- Core of `strings.Split` for a one-character separator: the pieces between the
    occurrences of the separator (always at least one piece). -/
def splitChars (sep : Char) : List Char → List (List Char)
  | [] => [[]]
  | c :: cs =>
    if c = sep then [] :: splitChars sep cs
    else
      match splitChars sep cs with
      | [] => [[c]]
      | p :: ps => (c :: p) :: ps

/-- Go `strings.Split(s, sep)` for a separator of one character. -/
def strings.Split (s : String) (sep : Char) : List String :=
  (splitChars sep s.data).map String.mk

/-- Go `strings.HasPrefix(s, prefix)`. -/
def strings.HasPrefix (s pre : String) : Bool :=
  pre.data.isPrefixOf s.data

/-- The text after the last slash of a path (the whole text when it has no slash). -/
def afterLastSlash : List Char → List Char
  | [] => []
  | c :: cs => if cs.contains '/' then afterLastSlash cs else if c = '/' then cs else c :: cs

/-- Go `path.Base(p)`: the last element of the path; trailing slashes are removed first,
    an empty path gives ".", a path of slashes only gives "/". -/
def path.Base (p : String) : String :=
  if p.data = [] then "."
  else
    let stripped := trimRightChars ['/'] p.data
    let last := afterLastSlash stripped
    if last = [] then "/" else ⟨last⟩

/-! ## The regular expression engine (`regexp`, leftmost-first semantics) -/

/-- The pieces a pattern is a sequence of.  The star and the optional piece are greedy,
    as in Go's default (non-POSIX) syntax. -/
inductive ReItem where
  /-- a literal character -/
  | lit (c : Char)
  /-- one character of a class -/
  | cls (p : Char → Bool)
  /-- the star `p*`: any number of characters of a class, as many as possible first -/
  | star (p : Char → Bool)
  /-- the optional `c?`: a literal character, taken first when it is there -/
  | opt (c : Char)
  /-- opening parenthesis of capture group 1 -/
  | capOpen
  /-- closing parenthesis of capture group 1 -/
  | capClose

/-- Positions of a match, each kept as the input that remains at that position:
    where group 1 opens, where it closes, and where the whole match ends. -/
structure Captures where
  start : List Char
  stop : List Char
  fin : List Char
deriving DecidableEq

/-- Greedy iteration of a class: consume one more character when possible and only then,
    if the rest of the pattern fails, stop here (backtracking). -/
def matchStar (p : Char → Bool) (k : List Char → Option Captures) :
    List Char → Option Captures
  | [] => k []
  | c :: cs =>
    if p c then
      match matchStar p k cs with
      | some r => some r
      | none => k (c :: cs)
    else k (c :: cs)

/-- Backtracking match of a pattern at the start of the input. -/
def matchHere : List ReItem → List Char → Captures → Option Captures
  | [], s, cap => some { cap with fin := s }
  | .lit c :: rest, s, cap =>
    match s with
    | [] => none
    | x :: xs => if x = c then matchHere rest xs cap else none
  | .cls p :: rest, s, cap =>
    match s with
    | [] => none
    | x :: xs => if p x then matchHere rest xs cap else none
  | .star p :: rest, s, cap => matchStar p (fun s1 => matchHere rest s1 cap) s
  | .opt c :: rest, s, cap =>
    match s with
    | [] => matchHere rest [] cap
    | x :: xs =>
      if x = c then
        match matchHere rest xs cap with
        | some r => some r
        | none => matchHere rest (x :: xs) cap
      else matchHere rest (x :: xs) cap
  | .capOpen :: rest, s, cap => matchHere rest s { cap with start := s }
  | .capClose :: rest, s, cap => matchHere rest s { cap with stop := s }

/-- Leftmost match: try every start position from the left; gives the input remaining at
    the start of the match, and the recorded positions. -/
def findFrom (pat : List ReItem) : List Char → Option (List Char × Captures)
  | [] => (matchHere pat [] ⟨[], [], []⟩).map (fun r => ([], r))
  | c :: cs =>
    match matchHere pat (c :: cs) ⟨[], [], []⟩ with
    | some r => some (c :: cs, r)
    | none => findFrom pat cs

/-- The text between two positions of the same input (each given by what remains). -/
def between (a b : List Char) : List Char :=
  a.take (a.length - b.length)

/-- Go `re.FindStringSubmatch(t)` for a pattern with one capture group: nil when there
    is no match, else the matched text followed by the text of group 1. -/
def FindStringSubmatch (pat : List ReItem) (t : String) : List String :=
  match findFrom pat t.data with
  | none => []
  | some (s0, r) => [⟨between s0 r.fin⟩, ⟨between r.start r.stop⟩]

/-- The class `.`: any character but a newline. -/
def anyChar (c : Char) : Bool := c != '\n'

/-- The class `[_a-zA-Z]`. -/
def identStart (c : Char) : Bool :=
  c == '_' || ('a' ≤ c && c ≤ 'z') || ('A' ≤ c && c ≤ 'Z')

/-- The class `[a-zA-Z0-9]`. -/
def identRest (c : Char) : Bool :=
  ('a' ≤ c && c ≤ 'z') || ('A' ≤ c && c ≤ 'Z') || ('0' ≤ c && c ≤ '9')

/-- A literal text as pattern pieces. -/
def lits (s : String) : List ReItem := s.data.map ReItem.lit

/-! ## parse.go -/

/-- The constant `suffix`. -/
def suffix : String := "_setters"

/-- The pattern `protobuf:".*name=([_a-zA-Z][a-zA-Z0-9]*),?.*"`. -/
def re : List ReItem :=
  lits "protobuf:\"" ++ [.star anyChar] ++ lits "name=" ++
    [.capOpen, .cls identStart, .star identRest, .capClose, .opt ',', .star anyChar, .lit '"']

/-- The function `tagName`: group 1 of the first match of `re`, or the empty string. -/
def tagName (t : String) : String :=
  let n := FindStringSubmatch re t
  if n.length > 1 then n.getD 1 "" else ""

/-- The struct `Meta` (the FieldMeta of a field). -/
structure Meta where
  fieldName : String
  fieldType : String
  tagName : String
deriving DecidableEq

/-- The type `Filter`: called with the file name, the struct name, the field name and the
    field type. -/
abbrev Filter := String → String → String → String → Bool

/-- The function `nullFilter`, used when the caller passes no filter. -/
def nullFilter : Filter := fun _ _ _ _ => true

/-- The struct `Import`. -/
structure Import where
  Name : String
  Path : String
deriving DecidableEq

/-- The type `Imports`. -/
abbrev Imports := List Import

/-- The method `Imports.Less`, on the two entries it is asked to compare:
    `imp[i].Path < imp[j].Path`. -/
def Imports.Less (a b : Import) : Bool := strLess a.Path.data b.Path.data

/-- The map `imports` of `ParseFile`: alias to quoted import path. -/
abbrev ImportTable := List (String × String)

/-- The map `mlist` of `ParseFile`: struct name to the FieldMeta of its fields. -/
abbrev MetaTable := List (String × List Meta)

/-- Reading a Go map: `m[k]` with its presence flag. -/
def mapGet {β : Type} : List (String × β) → String → Option β
  | [], _ => none
  | (k, v) :: m, key => if k = key then some v else mapGet m key

/-- Writing a Go map: `m[k] = v`, in place when the key is there, a new key otherwise. -/
def mapSet {β : Type} : List (String × β) → String → β → List (String × β)
  | [], key, val => [(key, val)]
  | (k, v) :: m, key, val => if k = key then (k, val) :: m else (k, v) :: mapSet m key val

/-- Go `delete(m, k)`. -/
def mapDelete {β : Type} : List (String × β) → String → List (String × β)
  | [], _ => []
  | (k, v) :: m, key => if k = key then mapDelete m key else (k, v) :: mapDelete m key

/-- The type `Saver`: called with the file name, the package name, the imports and the
    metadata; gives an error or nil. -/
abbrev Saver := String → String → Imports → MetaTable → Option String

/-- The type expressions of `go/ast` that the walker tells apart.  The operand of a
    selector is an identifier in every type the Go parser builds. -/
inductive Expr where
  /-- the node `*ast.SelectorExpr`: `X.Sel` -/
  | selector (x sel : String)
  /-- the node `*ast.StarExpr`: `*X` -/
  | star (x : Expr)
  /-- the node `*ast.Ident` -/
  | ident (name : String)
  /-- the node `*ast.ArrayType` -/
  | array
  /-- every other expression -/
  | other
deriving DecidableEq

/-- An `*ast.Field`: its names, its type, and its tag literal (nil when the field has no
    tag). -/
structure Field where
  Names : List String
  Typ : Expr
  Tag : Option String
deriving DecidableEq

/-- The nodes of `go/ast` that the walker tells apart, with the children that
    `ast.Inspect` visits, in its order. -/
inductive Node where
  /-- the node `*ast.ImportSpec`, with its optional name and the literal of its path -/
  | importSpec (name : Option String) (path : String)
  /-- the node `*ast.Ident` outside of a struct type -/
  | ident (name : String)
  /-- the node `*ast.StructType` with its field list -/
  | structType (fields : List Field)
  /-- every other node, with its children -/
  | other (children : List Node)

/-- An `*ast.File` as `parser.ParseFile` returns it: the identifier of the package clause
    and the declarations. -/
structure File where
  Name : String
  Decls : List Node

/-- The variables the closure passed to `ast.Inspect` writes. -/
structure WalkState where
  imports : ImportTable
  mlist : MetaTable
  identity : String
deriving DecidableEq

/-- The statement `mlist[identity] = append(mlist[identity], m)`. -/
def appendMeta (st : WalkState) (m : Meta) : WalkState :=
  { st with mlist := mapSet st.mlist st.identity ((mapGet st.mlist st.identity).getD [] ++ [m]) }

/-- The body of the loop over the fields of a struct type (lines 266-293), for one field.
    `none` is the run-time panic of `f.Tag.Value` on a nil `f.Tag`. -/
def visitField (fileName : String) (filter : Filter) (f : Field) (st : WalkState) :
    Option WalkState :=
  match f.Tag with
  | none => none
  | some value =>
    let tag := tagName value
    if tag = "" then some st
    else
      match f.Names with
      | [] => some st
      | name :: _ =>
        match f.Typ with
        | .selector x sel =>
          let ptrType := x ++ "." ++ sel
          if filter fileName st.identity name ptrType then
            some (appendMeta st ⟨name, ptrType, tag⟩)
          else some st
        | .star (.selector x sel) =>
          let ptrType := "*" ++ x ++ "." ++ sel
          if filter fileName st.identity name ptrType then
            some (appendMeta st ⟨name, ptrType, tag⟩)
          else some st
        | .star _ => some st
        | .ident n => some (appendMeta st ⟨name, n, tag⟩)
        | .array => some st
        | .other => some st

/-- The loop over `n.Fields.List`. -/
def visitFields (fileName : String) (filter : Filter) : List Field → WalkState → Option WalkState
  | [], st => some st
  | f :: fs, st =>
    match visitField fileName filter f st with
    | none => none
    | some st1 => visitFields fileName filter fs st1

mutual
/-- The traversal `ast.Inspect` with the closure of `ParseFile` (lines 254-297): the closure
    runs on the node, then the children are visited unless the closure returned false
    (it does so on a struct type). -/
def walkNode (fileName : String) (filter : Filter) : Node → WalkState → Option WalkState
  | .importSpec name pth, st =>
    match name with
    | some nm => some { st with imports := mapSet st.imports nm pth, identity := nm }
    | none => some { st with imports := mapSet st.imports (path.Base (strings.Trim pth "\"")) pth }
  | .ident name, st => some { st with identity := name }
  | .structType fields, st => visitFields fileName filter fields st
  | .other children, st => walkList fileName filter children st
/-- The traversal of a list of children, in order. -/
def walkList (fileName : String) (filter : Filter) : List Node → WalkState → Option WalkState
  | [], st => some st
  | n :: ns, st =>
    match walkNode fileName filter n st with
    | none => none
    | some st1 => walkList fileName filter ns st1
end

/-- The call `ast.Inspect(f, ...)`: the file node, the identifier of the package clause,
    then the declarations. -/
def inspectFile (fileName : String) (filter : Filter) (f : File) : Option WalkState :=
  walkList fileName filter (Node.ident f.Name :: f.Decls) ⟨[], [], ""⟩

/-- The variables of the loop that filters the imports (lines 309-328). -/
structure ResolveState where
  imports : ImportTable
  pkgName : String
  imported : Imports
deriving DecidableEq

/-- The body of the inner loop (lines 312-326), for one FieldMeta. -/
def claimImport (st : ResolveState) (s : Meta) : ResolveState :=
  let spath := strings.Split s.fieldType '.'
  if spath.length = 2 then
    let pkg := strings.TrimLeft (spath.getD 0 "") "*"
    match mapGet st.imports pkg with
    | some pth =>
      { imports := mapDelete st.imports pkg
        pkgName := pkg
        imported := st.imported ++
          [⟨if pkg = path.Base (strings.Trim pth "\"") then "" else pkg, pth⟩] }
    | none => st
  else st

/-- The two nested loops `for _, m := range mlist { for _, s := range m { ... } }`, over the
    entries of the map in the order the range statement yields them. -/
def claimAll (order : MetaTable) (st : ResolveState) : ResolveState :=
  order.foldl (fun acc entry => entry.2.foldl claimImport acc) st

/-- One pass of insertion: the new element moves left past every element it is `Less`
    than.  The sorted part is kept reversed, nearest neighbour first. -/
def sinkInto (x : Import) : List Import → List Import
  | [] => [x]
  | y :: ys => if Imports.Less x y then y :: sinkInto x ys else x :: y :: ys

/-- Go `sort.Sort` on `Imports`, as the insertion sort over `Less` that the library runs
    on a short slice.  The library promises a permutation sorted by `Less` and no stability;
    the theorems on the resolved list use these two properties only. -/
def sortSort (imp : Imports) : Imports :=
  (imp.foldl (fun sorted x => sinkInto x sorted) []).reverse

/-- The three entries `ParseFile` always appends. -/
def fixedImports : Imports :=
  [⟨"", "\"encoding/json\""⟩, ⟨"", "\"errors\""⟩, ⟨"", "\"strconv\""⟩]

/-- Lines 303-335 of `ParseFile`: from the import table and the metadata table (in the
    order the range statement yields its entries) to the package name and the import list
    handed to the saver. -/
def resolveImports (imports : ImportTable) (order : MetaTable) : String × Imports :=
  let imports1 := mapDelete (mapDelete (mapDelete imports "encoding/json") "errors") "strconv"
  let st := claimAll order ⟨imports1, "blah", []⟩
  (st.pkgName, sortSort (st.imported ++ fixedImports))

/-- One call of the saver, with its arguments. -/
structure SaverCall where
  fileName : String
  pkgName : String
  imports : Imports
  mlist : MetaTable
deriving DecidableEq

/-- What a run of `ParseFile` does: it panics, or it returns an error (or nil) after the
    listed calls of the saver. -/
inductive Outcome where
  | panicked
  | returned (calls : List SaverCall) (err : Option String)
deriving DecidableEq

/-- The function `ParseFile` on a file that `parser.ParseFile` has parsed.  `rangeOrder`
    is the order in which the range statement over `mlist` yields the entries of the map, a
    permutation of them that the Go run time chooses.  The type-checking pass only prints
    and is left out. -/
def ParseFile (fileName : String) (f : File) (filter : Option Filter) (saver : Saver)
    (rangeOrder : MetaTable → MetaTable) : Outcome :=
  let filter1 := match filter with
    | none => nullFilter
    | some g => g
  match inspectFile fileName filter1 f with
  | none => .panicked
  | some st =>
    if st.mlist.length = 0 then .returned [] none
    else
      let r := resolveImports st.imports (rangeOrder st.mlist)
      .returned [⟨fileName, r.1, r.2, st.mlist⟩] (saver fileName r.1 r.2 st.mlist)

/-- The output name `fileSaver` computes (line 348). -/
def fileSaverNewName (fileName : String) : String :=
  strings.TrimRight fileName ".go" ++ suffix ++ ".go"

/-! ## The code synthesizer -/

/-- Go `fmt.Sprintf` for a format whose only verb is `%s`, with string operands: every `%s`
    is replaced by the next operand, `%!s(MISSING)` stands for a missing one, and operands
    left over are reported at the end. -/
def sprintfChars : List Char → List String → List Char
  | [], [] => []
  | [], a :: as =>
    "%!(EXTRA ".data ++ (", ".intercalate ((a :: as).map (fun x => "string=" ++ x))).data ++
      ")".data
  | '%' :: 's' :: rest, [] => "%!s(MISSING)".data ++ sprintfChars rest []
  | '%' :: 's' :: rest, a :: as => a.data ++ sprintfChars rest as
  | c :: rest, as => c :: sprintfChars rest as

/-- Go `fmt.Sprintf(format, args...)`; `fmt.Fprintf(w, format, args...)` writes this text. -/
def fmt.Sprintf (format : String) (args : List String) : String :=
  ⟨sprintfChars format.data args⟩

/-- Go `fmt.Sprintln(args...)` on strings; `fmt.Fprintln(w, args...)` writes this text: the
    operands with a blank between them, and a newline. -/
def fmt.Sprintln (args : List String) : String :=
  " ".intercalate args ++ "\n"

/-- The function `PtrFunc`: the text it writes. -/
def PtrFunc (name : String) : String :=
  fmt.Sprintf
    "\n// Ptr returns a pointer to a copy of %s\nfunc (s %s) Ptr() interface\x7b\x7d \x7b\n\treturn &s\n\x7d\n"
    [name, name]

/-- The function `SetField`: the text it writes. -/
def SetField (structName field kind : String) : String :=
  fmt.Sprintf "\n// Set%s sets %s\nfunc (s *%s) Set%s(v %s) \x7b\n\ts.%s = v\n\x7d\n"
    [field, field, structName, field, kind, field]

/-- The constant `head` of `setStr`. -/
def setStrHead : String :=
  "\n// SetString sets the named element using the given string\nfunc (s *%s) SetString(name, value string) error \x7b\n\tvar err error\n\tswitch name \x7b\n"

/-- The constant `tail` of `setStr`. -/
def setStrTail : String :=
  "\tdefault:\n\t\terr = errors.New(\"field does not exist:\" + name)\n\t\x7d\n\treturn err\n\x7d\n"

/-- The closure `line` of `setStr`: two tabs, then the formatted text. -/
def line (text : String) (args : List String) : String :=
  "\t\t" ++ fmt.Sprintf text args

/-- The label that `setStr` writes for one FieldMeta (line 444). -/
def setStrLabel (m : Meta) : String :=
  fmt.Sprintf "\tcase \"%s\":  // (%s)\n" [m.tagName, m.fieldType]

/-- The case body that `setStr` writes for one FieldMeta: the switch on the field type
    (lines 445-474), with `ptr` and `ref` as lines 438-443 set them. -/
def setStrBody (m : Meta) : String :=
  let ptr := if strings.HasPrefix m.fieldType "*" then "*" else ""
  let ref := if strings.HasPrefix m.fieldType "*" then "" else "&"
  if m.fieldType = "int" then
    line "%ss.%s, err = strconv.Atoi(value)\n" [ptr, m.fieldName]
  else if m.fieldType = "int32" then
    line "var v int32" [] ++
    line "tv, err = strconv.Atoi(value)\n" [] ++
    line "%ss.%s = int32(v)\n" [ptr, m.fieldName]
  else if m.fieldType = "int64" then
    line "%ss.%s, err = strconv.ParseInt(value, 10, 64)\n" [ptr, m.fieldName]
  else if m.fieldType = "uint" then
    line "var u uint" [] ++
    line "u, err = strconv.ParseUint(value, 10, 64)\n" [] ++
    line "%ss.%s = uint(u)\n" [ptr, m.fieldName]
  else if m.fieldType = "uint32" then
    line "var u uint32" [] ++
    line "u, err = strconv.ParseUint(value, 10, 32)\n" [] ++
    line "%ss.%s = uint32(u)\n" [ptr, m.fieldName]
  else if m.fieldType = "uint64" then
    line "%ss.%s, err = strconv.ParseUint(value, 10, 64)\n" [ptr, m.fieldName]
  else if m.fieldType = "float32" then
    line "var v float32" [] ++
    line "v, err = strconv.ParseFloat(value, 32)\n" [] ++
    line "%ss.%s = float32(v)\n" [ptr, m.fieldName]
  else if m.fieldType = "float64" then
    line "%ss.%s, err = strconv.ParseFloat(value, 64)\n" [ptr, m.fieldName]
  else if m.fieldType = "string" then
    line "%ss.%s = value\n" [ptr, m.fieldName]
  else
    line "err = json.Unmarshal([]byte(value), %ss.%s)\n" [ref, m.fieldName]

/-- The function `setStr`: the text it writes, the head, then label and body for every
    FieldMeta of the list in turn, then the tail. -/
def setStr (name : String) (meta : List Meta) : String :=
  meta.foldl (fun w m => w ++ setStrLabel m ++ setStrBody m) (fmt.Sprintf setStrHead [name]) ++
    fmt.Sprintf setStrTail []

/-- The body of the loop `for _, m := range list` of `fileSaver` (lines 381-387): the text
    written so far and the set `ptrs`. -/
def emitField (structName : String) (acc : String × List String) (m : Meta) :
    String × List String :=
  let w := acc.1 ++ SetField structName m.fieldName m.fieldType
  if acc.2.contains structName then (w, acc.2)
  else (w ++ PtrFunc structName, structName :: acc.2)

/-- The body of the loop `for structName, list := range meta` of `fileSaver`
    (lines 380-389). -/
def emitType (acc : String × List String) (entry : String × List Meta) :
    String × List String :=
  let fields := entry.2.foldl (emitField entry.1) acc
  (fields.1 ++ setStr entry.1 entry.2, fields.2)

/-- The import block that `fileSaver` writes (lines 361-371). -/
def importBlock (imports : Imports) : String :=
  if imports.length > 0 then
    imports.foldl
      (fun w imp =>
        w ++ fmt.Sprintf "\t" [] ++
          (if imp.Name ≠ "" then fmt.Sprintf "%s " [imp.Name] else "") ++
          fmt.Sprintf "%s\n" [imp.Path])
      (fmt.Sprintln ["import ("]) ++
    fmt.Sprintln [")"]
  else ""

/-- The function `fileSaver` after `os.Create` has succeeded: the text it writes to the new
    file.  `osArgs` is `os.Args`, `order` the map `meta` in the order the range statement
    yields its entries. -/
def fileSaverText (osArgs : List String) (pkgName : String) (imports : Imports)
    (order : MetaTable) : String :=
  let banner :=
    fmt.Sprintln ["//"] ++ fmt.Sprintln ["// GENERATED FILE -- DO NOT EDIT"] ++
    fmt.Sprintln ["//"] ++ fmt.Sprintln ["// command:", " ".intercalate osArgs] ++
    fmt.Sprintln ["//"] ++ fmt.Sprintln [] ++
    fmt.Sprintln ["package", pkgName] ++ fmt.Sprintln [] ++
    importBlock imports ++
    fmt.Sprintln [] ++ fmt.Sprintln ["// guarantee imports"] ++
    fmt.Sprintln ["var _ = strconv.Atoi"] ++ fmt.Sprintln ["var _ = errors.New"] ++
    fmt.Sprintln ["var _ = json.Marshal"] ++ fmt.Sprintln []
  (order.foldl emitType (banner, [])).1

/-! ## The generated code of the `int` branch at run time -/

/-- The two errors of `strconv`: `ErrSyntax` and `ErrRange`. -/
inductive NumError where
  | ErrSyntax
  | ErrRange
deriving DecidableEq

/-- The loop of Go `strconv.ParseUint(s, 10, 64)` over the characters: a character that is
    no decimal digit stops it with a syntax error and 0; a number above `2^64 - 1` stops it
    with a range error and `2^64 - 1`, at the digit that overflows. -/
def parseUintLoop : List Char → Nat → Nat × Option NumError
  | [], n => (n, none)
  | c :: cs, n =>
    if '0' ≤ c ∧ c ≤ '9' then
      if n * 10 + (c.toNat - '0'.toNat) > 2 ^ 64 - 1 then (2 ^ 64 - 1, some .ErrRange)
      else parseUintLoop cs (n * 10 + (c.toNat - '0'.toNat))
    else (0, some .ErrSyntax)

/-- Go `strconv.ParseUint(s, 10, 64)`. -/
def strconv.ParseUint (s : List Char) : Nat × Option NumError :=
  if s = [] then (0, some .ErrSyntax) else parseUintLoop s 0

/-- Go `strconv.Atoi(s)` where `int` has 64 bits: an optional sign, then decimal digits.
    A syntax error comes with 0, a range error with the nearest bound. -/
def strconv.Atoi (s : String) : Int × Option NumError :=
  match s.data with
  | [] => (0, some .ErrSyntax)
  | c :: cs =>
    let neg : Bool := c = '-'
    let r := strconv.ParseUint (if c = '+' ∨ c = '-' then cs else c :: cs)
    if r.2 = some .ErrSyntax then (0, some .ErrSyntax)
    else if !neg && decide (r.1 ≥ 2 ^ 63) then (2 ^ 63 - 1, some .ErrRange)
    else if neg && decide (r.1 > 2 ^ 63) then (-(2 ^ 63), some .ErrRange)
    else (if neg then -(r.1 : Int) else (r.1 : Int), none)

/-- The variables a case of the generated `SetString` writes: the field of the struct and
    `err`. -/
structure GoVars where
  field : Int
  err : Option NumError
deriving DecidableEq

/-- Go's meaning of the case body `s.<field>, err = strconv.Atoi(value)`: an assignment
    of the two results of the call, the number to the field and the error to `err`; both
    are stored whatever the error is.  A text that is not this statement is outside of the
    fragment (`none`). -/
def runIntCase (body field value : String) (_vars : GoVars) : Option GoVars :=
  if body = "\t\ts." ++ field ++ ", err = strconv.Atoi(value)\n" then
    some ⟨(strconv.Atoi value).1, (strconv.Atoi value).2⟩
  else none

/-! ## The aliases the import loop claims -/

/-- The alias a FieldMeta asks for in the loop that filters the imports: the first of the
    two pieces of its type, stars stripped (lines 312-315); none when the type does not
    split in two at the dot. -/
def claimKey (m : Meta) : Option String :=
  if (strings.Split m.fieldType '.').length = 2 then
    some (strings.TrimLeft ((strings.Split m.fieldType '.').getD 0 "") "*")
  else none

/-- The entry the loop appends for an alias of the table (lines 320-324). -/
def entryOf (tbl : ImportTable) (P : String) : Import :=
  ⟨if P = path.Base (strings.Trim ((mapGet tbl P).getD "") "\"") then "" else P,
    (mapGet tbl P).getD ""⟩

/-! ## Well-formed inputs -/

/-- The operand of a qualified field type does not start with a star, and a plain type name
    does not start with two (true of every Go identifier). -/
def Field.plain (f : Field) : Bool :=
  match f.Typ with
  | .selector x _ => !("*".data.isPrefixOf x.data)
  | .star (.selector x _) => !("*".data.isPrefixOf x.data)
  | .ident n => !("**".data.isPrefixOf n.data)
  | _ => true

mutual
/-- Every field of every struct type of the tree is plain. -/
def Node.plain : Node → Bool
  | .structType fields => fields.all Field.plain
  | .other children => Node.plainList children
  | .importSpec _ _ => true
  | .ident _ => true
/-- The same for a list of trees. -/
def Node.plainList : List Node → Bool
  | [] => true
  | n :: ns => Node.plain n && Node.plainList ns
end

/-- No field type of the table starts with two stars. -/
def tableShape (t : MetaTable) : Prop :=
  ∀ entry ∈ t, ∀ m ∈ entry.2, ¬ ("**".data <+: m.fieldType.data)

/-- The shape of a table can be checked by evaluation. -/
instance (t : MetaTable) : Decidable (tableShape t) := by
  unfold tableShape
  infer_instance

/-! ## Source files used as concrete inputs -/

/-- The file `widget.go`:
    `package widgets; type Widget struct { Count int` with the tag
    `protobuf:"varint,1,opt,name=count"` `}`. -/
def widgetFile : File :=
  ⟨"widgets",
    [.other [.other [.ident "Widget",
      .structType [⟨["Count"], .ident "int", some "`protobuf:\"varint,1,opt,name=count\"`"⟩]]]]⟩

/-- The file `event.go`:
    `package events; import "encoding/json"; type Event struct { Payload json.RawMessage`
    with the tag `protobuf:"bytes,1,opt,name=payload,proto3"` `}`. -/
def eventFile : File :=
  ⟨"events",
    [.other [.importSpec none "\"encoding/json\""],
     .other [.other [.ident "Event",
      .structType [⟨["Payload"], .selector "json" "RawMessage",
        some "`protobuf:\"bytes,1,opt,name=payload,proto3\"`"⟩]]]]⟩

/-- The file `report.go`:
    `package reports; import "github.com/pkg/errors"; type Report struct { Frame *errors.Frame`
    with the tag `protobuf:"bytes,1,opt,name=frame,proto3"` `}`. -/
def reportFile : File :=
  ⟨"reports",
    [.other [.importSpec none "\"github.com/pkg/errors\""],
     .other [.other [.ident "Report",
      .structType [⟨["Frame"], .star (.selector "errors" "Frame"),
        some "`protobuf:\"bytes,1,opt,name=frame,proto3\"`"⟩]]]]⟩

/-- The file `plain.go`: `package plain; type Plain struct { A int }`, a struct whose only
    field has no tag. -/
def plainFile : File :=
  ⟨"plain", [.other [.other [.ident "Plain", .structType [⟨["A"], .ident "int", none⟩]]]]⟩

/-! ## Lemmas on the regular expression engine -/

theorem matchStar_some (p : Char → Bool) (k : List Char → Option Captures) (s : List Char)
    (r : Captures) (h : matchStar p k s = some r) :
    ∃ a b, s = a ++ b ∧ (∀ c ∈ a, p c = true) ∧ k b = some r := by
  induction s generalizing r with
  | nil => exact ⟨[], [], rfl, by simp, by simpa [matchStar] using h⟩
  | cons c cs ih =>
    unfold matchStar at h
    by_cases hp : p c = true
    · rw [if_pos hp] at h
      cases hm : matchStar p k cs with
      | some r1 =>
        rw [hm] at h
        obtain ⟨a, b, hs, ha, hk⟩ := ih _ hm
        refine ⟨c :: a, b, by simp [hs], ?_, ?_⟩
        · intro x hx
          rcases List.mem_cons.mp hx with rfl | hx
          · exact hp
          · exact ha x hx
        · rw [← h]; exact hk
      | none =>
        rw [hm] at h
        exact ⟨[], c :: cs, rfl, by simp, h⟩
    · rw [if_neg hp] at h
      exact ⟨[], c :: cs, rfl, by simp, h⟩

theorem matchHere_lits (l : List Char) (rest : List ReItem) (s : List Char) (cap r : Captures)
    (h : matchHere (l.map ReItem.lit ++ rest) s cap = some r) :
    ∃ s1, s = l ++ s1 ∧ matchHere rest s1 cap = some r := by
  induction l generalizing s with
  | nil => exact ⟨s, rfl, h⟩
  | cons c cs ih =>
    cases s with
    | nil => simp [matchHere] at h
    | cons x xs =>
      simp only [List.map_cons, List.cons_append, matchHere] at h
      by_cases hx : x = c
      · rw [if_pos hx] at h
        obtain ⟨s1, hs, hm⟩ := ih xs h
        exact ⟨s1, by simp [hx, hs], hm⟩
      · rw [if_neg hx] at h
        exact absurd h (by simp)

theorem matchHere_snoc_lit (pat : List ReItem) (c : Char) (s : List Char) (cap r : Captures)
    (h : matchHere (pat ++ [ReItem.lit c]) s cap = some r) :
    ∃ m post, s = m ++ c :: post := by
  induction pat generalizing s cap r with
  | nil =>
    cases s with
    | nil => simp [matchHere] at h
    | cons x xs =>
      simp only [List.nil_append, matchHere] at h
      by_cases hx : x = c
      · exact ⟨[], xs, by simp [hx]⟩
      · rw [if_neg hx] at h
        exact absurd h (by simp)
  | cons it rest ih =>
    cases it with
    | lit d =>
      cases s with
      | nil => simp [matchHere] at h
      | cons x xs =>
        simp only [List.cons_append, matchHere, List.append_eq] at h
        by_cases hx : x = d
        · rw [if_pos hx] at h
          obtain ⟨m, post, hs⟩ := ih xs cap _ h
          exact ⟨x :: m, post, by simp [hs]⟩
        · rw [if_neg hx] at h
          exact absurd h (by simp)
    | cls p =>
      cases s with
      | nil => simp [matchHere] at h
      | cons x xs =>
        simp only [List.cons_append, matchHere, List.append_eq] at h
        by_cases hx : p x = true
        · rw [if_pos hx] at h
          obtain ⟨m, post, hs⟩ := ih xs cap _ h
          exact ⟨x :: m, post, by simp [hs]⟩
        · rw [if_neg hx] at h
          exact absurd h (by simp)
    | star p =>
      simp only [List.cons_append, matchHere, List.append_eq] at h
      obtain ⟨a, b, hs, -, hk⟩ := matchStar_some _ _ _ _ h
      obtain ⟨m, post, hb⟩ := ih b cap _ hk
      exact ⟨a ++ m, post, by simp [hs, hb]⟩
    | opt d =>
      cases s with
      | nil =>
        simp only [List.cons_append, matchHere, List.append_eq] at h
        exact ih [] cap _ h
      | cons x xs =>
        simp only [List.cons_append, matchHere, List.append_eq] at h
        by_cases hx : x = d
        · rw [if_pos hx] at h
          cases hm : matchHere (rest ++ [ReItem.lit c]) xs cap with
          | some r1 =>
            obtain ⟨m, post, hs⟩ := ih xs cap _ hm
            exact ⟨x :: m, post, by simp [hs]⟩
          | none =>
            rw [hm] at h
            exact ih (x :: xs) cap _ h
        · rw [if_neg hx] at h
          exact ih (x :: xs) cap _ h
    | capOpen =>
      simp only [List.cons_append, matchHere, List.append_eq] at h
      exact ih s _ _ h
    | capClose =>
      simp only [List.cons_append, matchHere, List.append_eq] at h
      exact ih s _ _ h

theorem findFrom_some (pat : List ReItem) (t s0 : List Char) (r : Captures)
    (h : findFrom pat t = some (s0, r)) :
    (∃ pre, t = pre ++ s0) ∧ matchHere pat s0 ⟨[], [], []⟩ = some r := by
  induction t with
  | nil =>
    simp only [findFrom, Option.map_eq_some', Prod.mk.injEq] at h
    obtain ⟨a, ha, hs, hr⟩ := h
    subst hs; subst hr
    exact ⟨⟨[], rfl⟩, ha⟩
  | cons c cs ih =>
    unfold findFrom at h
    cases hm : matchHere pat (c :: cs) ⟨[], [], []⟩ with
    | some r1 =>
      rw [hm] at h
      simp only [Option.some.injEq, Prod.mk.injEq] at h
      obtain ⟨hs, hr⟩ := h
      subst hs; subst hr
      exact ⟨⟨[], rfl⟩, hm⟩
    | none =>
      rw [hm] at h
      obtain ⟨⟨pre, hp⟩, hmm⟩ := ih h
      exact ⟨⟨c :: pre, by simp [hp]⟩, hmm⟩

/-- A match of `re` decomposes the input. -/
theorem re_match_shape (s0 : List Char) (r : Captures)
    (h : matchHere re s0 ⟨[], [], []⟩ = some r) :
    ∃ a b post, s0 = "protobuf:\"".data ++ (a ++ "name=".data ++ b) ++ '"' :: post := by
  have h1 : matchHere ("protobuf:\"".data.map ReItem.lit ++ ([ReItem.star anyChar] ++ "name=".data.map ReItem.lit ++
    [.capOpen, .cls identStart, .star identRest, .capClose, .opt ',', .star anyChar, .lit '"'])) s0 ⟨[], [], []⟩ = some r := by
    simpa [re, lits, List.append_assoc] using h
  obtain ⟨s1, hs1, hm1⟩ := matchHere_lits _ _ _ _ _ h1
  have hm1a : matchStar anyChar (fun s => matchHere ("name=".data.map ReItem.lit ++
      [.capOpen, .cls identStart, .star identRest, .capClose, .opt ',', .star anyChar,
        .lit '"']) s ⟨[], [], []⟩) s1 = some r := hm1
  obtain ⟨a, s2, hs2, -, hm2⟩ := matchStar_some _ _ _ _ hm1a
  obtain ⟨s3, hs3, hm3⟩ := matchHere_lits _ _ _ _ _ hm2
  have hm4 : matchHere ([ReItem.capOpen, .cls identStart, .star identRest, .capClose, .opt ',', .star anyChar] ++ [.lit '"']) s3 ⟨[], [], []⟩ = some r := by
    simpa using hm3
  obtain ⟨b, post, hs4⟩ := matchHere_snoc_lit _ _ _ _ _ hm4
  exact ⟨a, b, post, by simp [hs1, hs2, hs3, hs4]⟩

theorem tagName_eq_empty_of_no_match (t : String) (h : findFrom re t.data = none) :
    tagName t = "" := by
  simp [tagName, FindStringSubmatch, h]

/-- Greedy: when the iteration succeeds from a later position, it succeeds with the same
    result from an earlier one, all characters in between being of the class. -/
theorem matchStar_append_some (p : Char → Bool) (k : List Char → Option Captures)
    (a b : List Char) (r : Captures) (ha : ∀ c ∈ a, p c = true)
    (h : matchStar p k b = some r) : matchStar p k (a ++ b) = some r := by
  induction a with
  | nil => exact h
  | cons x xs ih =>
    have hx : p x = true := ha x (List.mem_cons_self _ _)
    have hxs : matchStar p k (xs ++ b) = some r :=
      ih (fun c hc => ha c (List.mem_cons_of_mem _ hc))
    simp only [List.cons_append, matchStar, hx, if_true, List.append_eq, hxs]

/-- When the rest of the pattern fails at every later position, the iteration stops at
    once. -/
theorem matchStar_eq_of_later_none (p : Char → Bool) (k : List Char → Option Captures)
    (b : List Char) (h : ∀ u b1, u ≠ [] → b = u ++ b1 → k b1 = none) :
    matchStar p k b = k b := by
  induction b with
  | nil => rfl
  | cons c cs ih =>
    have hcs : matchStar p k cs = none := by
      rw [ih (fun u b1 hu hb => h (c :: u) b1 (by simp) (by simp [hb]))]
      exact h [c] cs (by simp) rfl
    unfold matchStar
    rw [hcs]
    split <;> rfl

theorem matchHere_lits_append (l : List Char) (rest : List ReItem) (s : List Char)
    (cap : Captures) :
    matchHere (l.map ReItem.lit ++ rest) (l ++ s) cap = matchHere rest s cap := by
  induction l with
  | nil => rfl
  | cons c cs ih => simp only [List.map_cons, List.cons_append, matchHere, if_true, List.append_eq, ih]

theorem matchHere_lits_none (l : List Char) (rest : List ReItem) (s : List Char)
    (cap : Captures) (h : ¬ (l <+: s)) :
    matchHere (l.map ReItem.lit ++ rest) s cap = none := by
  cases hm : matchHere (l.map ReItem.lit ++ rest) s cap with
  | none => rfl
  | some r =>
    obtain ⟨s1, hs, -⟩ := matchHere_lits l rest s cap r hm
    exact absurd ⟨s1, hs.symm⟩ h


/-- The result of a match keeps the group positions recorded before it, when the
    pattern that remains holds no parenthesis. -/
theorem matchHere_quote (s : List Char) (cap r : Captures)
    (h : matchHere [ReItem.lit '"'] s cap = some r) :
    r.start = cap.start ∧ r.stop = cap.stop := by
  cases s with
  | nil => simp [matchHere] at h
  | cons x xs =>
    simp only [matchHere] at h
    by_cases hx : x = '"'
    · rw [if_pos hx] at h
      cases h
      exact ⟨rfl, rfl⟩
    · rw [if_neg hx] at h
      cases h

theorem matchStar_isSome (p : Char → Bool) (k : List Char → Option Captures)
    (a b : List Char) (ha : ∀ c ∈ a, p c = true) (h : (k b).isSome = true) :
    (matchStar p k (a ++ b)).isSome = true := by
  have hb : (matchStar p k b).isSome = true := by
    cases b with
    | nil => exact h
    | cons c cs =>
      unfold matchStar
      split
      · cases hm : matchStar p k cs with
        | some r => rfl
        | none => exact h
      · exact h
  obtain ⟨r, hr⟩ := Option.isSome_iff_exists.mp hb
  rw [matchStar_append_some p k a b r ha hr]
  rfl

theorem matchHere_opt_hit (c : Char) (rest : List ReItem) (xs : List Char) (cap r : Captures)
    (h : matchHere rest xs cap = some r) :
    matchHere (ReItem.opt c :: rest) (c :: xs) cap = some r := by
  rw [matchHere, if_pos rfl, h]

/-- The end of the pattern, `,?.*"`, on the end of the protobuf sub-tag. -/
theorem tail_match (rest : List Char) (cap : Captures) :
    ∃ r, matchHere [ReItem.opt ',', .star anyChar, .lit '"'] (",proto3\"".data ++ rest) cap = some r ∧
      r.start = cap.start ∧ r.stop = cap.stop := by
  have h1 : (matchStar anyChar (fun s => matchHere [ReItem.lit '"'] s cap)
      ("proto3".data ++ ('"' :: rest))).isSome = true := by
    apply matchStar_isSome
    · decide
    · simp [matchHere]
  obtain ⟨r, hr⟩ := Option.isSome_iff_exists.mp h1
  obtain ⟨a, b, -, -, hk⟩ := matchStar_some _ _ _ _ hr
  refine ⟨r, ?_, matchHere_quote b cap r hk⟩
  have h2 : matchHere [ReItem.star anyChar, .lit '"'] ("proto3\"".data ++ rest) cap = some r := hr
  show matchHere [ReItem.opt ',', .star anyChar, .lit '"'] (',' :: ("proto3\"".data ++ rest)) cap = some r
  exact matchHere_opt_hit _ _ _ _ _ h2

/-- The group and what follows it, on the name and the end of the sub-tag. -/
theorem group_match (c : Char) (cs rest : List Char) (cap : Captures)
    (hc : identStart c = true) (hcs : ∀ d ∈ cs, identRest d = true) :
    ∃ r, matchHere [ReItem.capOpen, .cls identStart, .star identRest, .capClose, .opt ',',
        .star anyChar, .lit '"'] (c :: cs ++ (",proto3\"".data ++ rest)) cap = some r ∧
      r.start = c :: cs ++ (",proto3\"".data ++ rest) ∧ r.stop = ",proto3\"".data ++ rest := by
  obtain ⟨r, hr, hstart, hstop⟩ := tail_match rest
    { start := c :: cs ++ (",proto3\"".data ++ rest), stop := ",proto3\"".data ++ rest, fin := cap.fin }
  refine ⟨r, ?_, hstart, hstop⟩
  have hk : matchStar identRest
      (fun s => matchHere [ReItem.capClose, .opt ',', .star anyChar, .lit '"'] s
        { cap with start := c :: cs ++ (",proto3\"".data ++ rest) })
      (",proto3\"".data ++ rest) = some r := by
    show matchStar identRest _ (',' :: ("proto3\"".data ++ rest)) = some r
    unfold matchStar
    rw [if_neg (by decide)]
    exact hr
  have hstar := matchStar_append_some identRest _ cs _ r hcs hk
  show matchHere [ReItem.capOpen, .cls identStart, .star identRest, .capClose, .opt ',',
        .star anyChar, .lit '"'] (c :: (cs ++ (",proto3\"".data ++ rest))) cap = some r
  simp only [matchHere, hc, if_true]
  exact hstar


/-- No end of `name=` starts a name followed by `,proto3"`. -/
theorem name_end_mismatch (Y rest : List Char) (hY : ∀ c ∈ Y, c ≠ '=') (k : Nat)
    (hk : k < 5) : ¬ ("name=".data.drop k <+: Y ++ (",proto3\"".data ++ rest)) := by
  induction Y generalizing k with
  | nil =>
    intro h
    have hk5 : k = 0 ∨ k = 1 ∨ k = 2 ∨ k = 3 ∨ k = 4 := by omega
    rcases hk5 with rfl | rfl | rfl | rfl | rfl <;>
      · obtain ⟨t, ht⟩ := h
        simp at ht
  | cons c cs ih =>
    intro h
    have hc : c ≠ '=' := hY c (List.mem_cons_self _ _)
    have hcs : ∀ d ∈ cs, d ≠ '=' := fun d hd => hY d (List.mem_cons_of_mem _ hd)
    have hk5 : k = 0 ∨ k = 1 ∨ k = 2 ∨ k = 3 ∨ k = 4 := by omega
    rcases hk5 with rfl | rfl | rfl | rfl | rfl
    · exact ih hcs 1 (by omega)
        (List.cons_prefix_cons.mp (show 'n' :: "name=".data.drop 1 <+: c :: _ from h)).2
    · exact ih hcs 2 (by omega)
        (List.cons_prefix_cons.mp (show 'a' :: "name=".data.drop 2 <+: c :: _ from h)).2
    · exact ih hcs 3 (by omega)
        (List.cons_prefix_cons.mp (show 'm' :: "name=".data.drop 3 <+: c :: _ from h)).2
    · exact ih hcs 4 (by omega)
        (List.cons_prefix_cons.mp (show 'e' :: "name=".data.drop 4 <+: c :: _ from h)).2
    · exact hc (List.cons_prefix_cons.mp (show '=' :: [] <+: c :: _ from h)).1.symm

/-- The text `name=` does not occur in a name followed by `,proto3"` and a text without
    `name=`. -/
theorem name_not_infix (Y rest : List Char) (hY : ∀ c ∈ Y, c ≠ '=')
    (hrest : ¬ ("name=".data <:+: rest)) :
    ¬ ("name=".data <:+: Y ++ (",proto3\"".data ++ rest)) := by
  induction Y with
  | nil =>
    intro h
    have h1 : "name=".data <:+: ',' :: 'p' :: 'r' :: 'o' :: 't' :: 'o' :: '3' :: '"' :: rest := h
    simp only [List.infix_cons_iff] at h1
    rcases h1 with h1 | h1 | h1 | h1 | h1 | h1 | h1 | h1 | h1
    all_goals first
      | exact hrest h1
      | exact absurd (List.cons_prefix_cons.mp h1).1 (by decide)
  | cons c cs ih =>
    intro h
    rcases List.infix_cons_iff.mp h with h1 | h1
    · exact name_end_mismatch (c :: cs) rest hY 0 (by omega) h1
    · exact ih (fun d hd => hY d (List.mem_cons_of_mem _ hd)) h1

/-- After its start, the text `name=X,proto3"...` has no position where `name=` begins. -/
theorem later_start_mismatch (Y rest u b1 : List Char) (hY : ∀ c ∈ Y, c ≠ '=')
    (hrest : ¬ ("name=".data <:+: rest)) (hu : u ≠ [])
    (hb : "name=".data ++ (Y ++ (",proto3\"".data ++ rest)) = u ++ b1) :
    ¬ ("name=".data <+: b1) := by
  intro hpre
  cases u with
  | nil => exact hu rfl
  | cons x xs =>
    have hb1 : 'n' :: 'a' :: 'm' :: 'e' :: '=' :: (Y ++ (",proto3\"".data ++ rest)) =
        x :: (xs ++ b1) := hb
    have hsuf : b1 <:+ 'a' :: 'm' :: 'e' :: '=' :: (Y ++ (",proto3\"".data ++ rest)) :=
      ⟨xs, (List.cons.inj hb1).2.symm⟩
    simp only [List.suffix_cons_iff] at hsuf
    rcases hsuf with h | h | h | h | h
    · rw [h] at hpre; exact absurd (List.cons_prefix_cons.mp hpre).1 (by decide)
    · rw [h] at hpre; exact absurd (List.cons_prefix_cons.mp hpre).1 (by decide)
    · rw [h] at hpre; exact absurd (List.cons_prefix_cons.mp hpre).1 (by decide)
    · rw [h] at hpre; exact absurd (List.cons_prefix_cons.mp hpre).1 (by decide)
    · exact name_not_infix Y rest hY hrest
        (List.IsInfix.trans hpre.isInfix h.isInfix)

theorem identStart_ne_eq (c : Char) (h : identStart c = true) : c ≠ '=' := by
  intro hc; rw [hc] at h; exact absurd h (by decide)

theorem identRest_ne_eq (c : Char) (h : identRest c = true) : c ≠ '=' := by
  intro hc; rw [hc] at h; exact absurd h (by decide)

/-- The match of `re` at the start of a protobuf sub-tag with a plain name. -/
theorem re_match_plain (c : Char) (cs rest : List Char)
    (hc : identStart c = true) (hcs : ∀ d ∈ cs, identRest d = true)
    (hrest : ¬ ("name=".data <:+: rest)) :
    ∃ r, matchHere re ("protobuf:\"".data ++ ("bytes,1,opt,".data ++
        ("name=".data ++ (c :: cs ++ (",proto3\"".data ++ rest))))) ⟨[], [], []⟩ = some r ∧
      r.start = c :: cs ++ (",proto3\"".data ++ rest) ∧ r.stop = ",proto3\"".data ++ rest := by
  obtain ⟨r, hr, hstart, hstop⟩ := group_match c cs rest ⟨[], [], []⟩ hc hcs
  refine ⟨r, ?_, hstart, hstop⟩
  have hY : ∀ d ∈ c :: cs, d ≠ '=' := by
    intro d hd
    rcases List.mem_cons.mp hd with rfl | hd
    · exact identStart_ne_eq _ hc
    · exact identRest_ne_eq _ (hcs d hd)
  have hre : re = "protobuf:\"".data.map ReItem.lit ++ (ReItem.star anyChar ::
      ("name=".data.map ReItem.lit ++ [ReItem.capOpen, .cls identStart, .star identRest,
        .capClose, .opt ',', .star anyChar, .lit '"'])) := rfl
  rw [hre, matchHere_lits_append]
  show matchStar anyChar (fun s => matchHere ("name=".data.map ReItem.lit ++
      [ReItem.capOpen, .cls identStart, .star identRest, .capClose, .opt ',', .star anyChar,
        .lit '"']) s ⟨[], [], []⟩) _ = some r
  apply matchStar_append_some
  · decide
  · rw [matchStar_eq_of_later_none]
    · rw [matchHere_lits_append]
      exact hr
    · intro u b1 hu hb
      exact matchHere_lits_none _ _ _ _ (later_start_mismatch (c :: cs) rest u b1 hY hrest hu hb)

theorem findFrom_skip (pat : List ReItem) (pre s : List Char)
    (hpre : ∀ x ∈ pre, ∀ xs, matchHere pat (x :: xs) ⟨[], [], []⟩ = none) :
    findFrom pat (pre ++ s) = findFrom pat s := by
  induction pre with
  | nil => rfl
  | cons x xs ih =>
    have h1 := hpre x (List.mem_cons_self _ _) (xs ++ s)
    have h2 := ih (fun y hy => hpre y (List.mem_cons_of_mem _ hy))
    simp only [List.cons_append, findFrom, List.append_eq, h1, h2]

theorem findFrom_of_match (pat : List ReItem) (x : Char) (xs : List Char) (r : Captures)
    (h : matchHere pat (x :: xs) ⟨[], [], []⟩ = some r) :
    findFrom pat (x :: xs) = some (x :: xs, r) := by
  simp only [findFrom, h]

theorem re_none_of_ne_p (x : Char) (xs : List Char) (hx : x ≠ 'p') :
    matchHere re (x :: xs) ⟨[], [], []⟩ = none := by
  have hre : re = ReItem.lit 'p' :: ("rotobuf:\"".data.map ReItem.lit ++ (ReItem.star anyChar ::
      ("name=".data.map ReItem.lit ++ [ReItem.capOpen, .cls identStart, .star identRest,
        .capClose, .opt ',', .star anyChar, .lit '"']))) := rfl
  rw [hre, matchHere, if_neg hx]

theorem between_append (a b : List Char) : between (a ++ b) b = a := by
  simp [between]

/-! ## Lemmas on the string order and on `sort.Sort` -/

theorem strLess_iff_lex (a b : List Char) :
    strLess a b = true ↔ List.Lex (fun x y : Char => x < y) a b := by
  induction a generalizing b with
  | nil =>
    cases b with
    | nil => simp [strLess]
    | cons y ys => simpa [strLess] using List.Lex.nil
  | cons x xs ih =>
    cases b with
    | nil => simp [strLess]
    | cons y ys =>
      unfold strLess
      by_cases h1 : x < y
      · simpa [h1] using List.Lex.rel h1
      · by_cases h2 : y < x
        · simp only [h1, h2, if_false, if_true]
          constructor
          · intro h; cases h
          · intro h
            cases h with
            | cons h => exact absurd h2 (lt_irrefl _)
            | rel h => exact absurd h h1
        · have hxy : x = y := le_antisymm (not_lt.mp h2) (not_lt.mp h1)
          subst hxy
          simp only [h1, if_false, ih]
          exact List.Lex.cons_iff.symm

theorem Less_iff (a b : Import) : Imports.Less a b = true ↔ a.Path < b.Path := by
  unfold Imports.Less
  rw [strLess_iff_lex, String.lt_iff_toList_lt]
  rfl

theorem Less_eq_false_iff (a b : Import) : Imports.Less a b = false ↔ b.Path ≤ a.Path := by
  rw [← not_lt, ← Less_iff]; simp

theorem sinkInto_perm (x : Import) (l : List Import) : (sinkInto x l).Perm (x :: l) := by
  induction l with
  | nil => exact List.Perm.refl _
  | cons y ys ih =>
    unfold sinkInto
    by_cases h : Imports.Less x y = true
    · rw [if_pos h]
      exact (List.Perm.cons y ih).trans (List.Perm.swap x y ys)
    · rw [if_neg h]

theorem foldl_sinkInto_perm (l acc : List Import) :
    (l.foldl (fun sorted x => sinkInto x sorted) acc).Perm (l ++ acc) := by
  induction l generalizing acc with
  | nil => exact List.Perm.refl _
  | cons x xs ih =>
    simp only [List.foldl_cons, List.cons_append]
    refine (ih _).trans ?_
    refine (List.Perm.append_left xs (sinkInto_perm x acc)).trans ?_
    exact List.perm_middle

theorem sortSort_perm (l : Imports) : (sortSort l).Perm l := by
  unfold sortSort
  refine (List.reverse_perm _).trans ?_
  simpa using foldl_sinkInto_perm l []

theorem sinkInto_head (x : Import) (l : List Import) :
    ∀ h ∈ (sinkInto x l).head?, h = x ∨ h ∈ l.head? := by
  intro h hh
  cases l with
  | nil => simp [sinkInto] at hh; exact Or.inl hh.symm
  | cons y ys =>
    unfold sinkInto at hh
    by_cases hl : Imports.Less x y = true
    · rw [if_pos hl] at hh
      simp at hh; right; simp [hh]
    · rw [if_neg hl] at hh
      simp at hh; left; exact hh.symm

theorem sinkInto_chain (x : Import) (l : List Import)
    (hl : List.Chain' (fun a b => b.Path ≤ a.Path) l) :
    List.Chain' (fun a b => b.Path ≤ a.Path) (sinkInto x l) := by
  induction l with
  | nil => simp [sinkInto]
  | cons y ys ih =>
    unfold sinkInto
    by_cases h : Imports.Less x y = true
    · rw [if_pos h]
      rw [List.chain'_cons'] at hl ⊢
      refine ⟨?_, ih hl.2⟩
      intro z hz
      rcases sinkInto_head x ys z hz with rfl | hz
      · exact le_of_lt ((Less_iff _ _).mp h)
      · exact hl.1 z hz
    · rw [if_neg h]
      rw [List.chain'_cons]
      refine ⟨?_, hl⟩
      have : Imports.Less x y = false := by simpa using h
      exact (Less_eq_false_iff _ _).mp this

theorem foldl_sinkInto_chain (l acc : List Import)
    (hacc : List.Chain' (fun a b => b.Path ≤ a.Path) acc) :
    List.Chain' (fun a b => b.Path ≤ a.Path) (l.foldl (fun sorted x => sinkInto x sorted) acc) := by
  induction l generalizing acc with
  | nil => exact hacc
  | cons x xs ih => exact ih _ (sinkInto_chain x acc hacc)

theorem sortSort_chain (l : Imports) :
    List.Chain' (fun a b => a.Path ≤ b.Path) (sortSort l) := by
  unfold sortSort
  rw [List.chain'_reverse]
  exact foldl_sinkInto_chain l [] List.chain'_nil

/-! ## Lemmas on `strings.Split`, `strings.TrimLeft`, the maps and the import loop -/

theorem splitChars_no_sep (sep : Char) (s : List Char) (h : sep ∉ s) : splitChars sep s = [s] := by
  induction s with
  | nil => rfl
  | cons c cs ih =>
    have hc : ¬ c = sep := fun e => h (by simp [e])
    have hcs : sep ∉ cs := fun e => h (by simp [e])
    simp [splitChars, hc, ih hcs]

theorem splitChars_append (sep : Char) (a b : List Char) (ha : sep ∉ a) :
    splitChars sep (a ++ sep :: b) = a :: splitChars sep b := by
  induction a with
  | nil => simp [splitChars]
  | cons c cs ih =>
    have hc : ¬ c = sep := fun e => ha (by simp [e])
    have hcs : sep ∉ cs := fun e => ha (by simp [e])
    simp [splitChars, hc, ih hcs]

theorem splitChars_ne_nil (sep : Char) (s : List Char) : splitChars sep s ≠ [] := by
  cases s with
  | nil => simp [splitChars]
  | cons c cs =>
    unfold splitChars
    by_cases h : c = sep
    · simp [h]
    · rw [if_neg h]
      cases splitChars sep cs <;> simp

theorem splitChars_single (sep : Char) (s b : List Char) (h : splitChars sep s = [b]) :
    s = b := by
  induction s generalizing b with
  | nil => simpa [splitChars] using h
  | cons c cs ih =>
    unfold splitChars at h
    by_cases hc : c = sep
    · rw [if_pos hc] at h
      simp only [List.cons.injEq] at h
      exact absurd h.2 (splitChars_ne_nil sep cs)
    · rw [if_neg hc] at h
      cases hs : splitChars sep cs with
      | nil => exact absurd hs (splitChars_ne_nil sep cs)
      | cons p ps =>
        rw [hs] at h
        simp only [List.cons.injEq] at h
        obtain ⟨h1, h2⟩ := h
        subst h2
        rw [ih p hs, h1]

theorem splitChars_pair (sep : Char) (s a b : List Char) (h : splitChars sep s = [a, b]) :
    s = a ++ sep :: b := by
  induction s generalizing a with
  | nil => simp [splitChars] at h
  | cons c cs ih =>
    unfold splitChars at h
    by_cases hc : c = sep
    · rw [if_pos hc] at h
      simp only [List.cons.injEq] at h
      obtain ⟨h1, h2⟩ := h
      rw [← h1, splitChars_single sep cs b h2, hc]
      rfl
    · rw [if_neg hc] at h
      cases hs : splitChars sep cs with
      | nil => exact absurd hs (splitChars_ne_nil sep cs)
      | cons p ps =>
        rw [hs] at h
        simp only [List.cons.injEq] at h
        obtain ⟨h1, h2⟩ := h
        subst h2
        rw [ih p hs, ← h1]
        rfl

theorem trimLeftChars_star (a : List Char) :
    a = trimLeftChars ['*'] a ∨ a = '*' :: trimLeftChars ['*'] a ∨
      ∃ rest, a = '*' :: '*' :: rest := by
  cases a with
  | nil => left; rfl
  | cons c cs =>
    by_cases hc : c = '*'
    · subst hc
      cases cs with
      | nil => right; left; rfl
      | cons d ds =>
        by_cases hd : d = '*'
        · right; right; exact ⟨ds, by rw [hd]⟩
        · right; left
          have : trimLeftChars ['*'] ('*' :: d :: ds) = d :: ds := by
            simp [trimLeftChars, hd]
          rw [this]
    · left
      simp [trimLeftChars, hc]

theorem trimLeftChars_of_not_mem (cutset a : List Char) (h : ∀ c ∈ a, c ∉ cutset) :
    trimLeftChars cutset a = a := by
  cases a with
  | nil => rfl
  | cons c cs =>
    have : c ∉ cutset := h c (by simp)
    simp [trimLeftChars, this]

/-- What a claim of `claimImport` tells about the field type. -/
theorem split_shape (ty : String) (hty : ¬ ("**".data <+: ty.data))
    (hlen : (strings.Split ty '.').length = 2) :
    ∃ T : String,
      ty = strings.TrimLeft ((strings.Split ty '.').getD 0 "") "*" ++ "." ++ T ∨
      ty = "*" ++ strings.TrimLeft ((strings.Split ty '.').getD 0 "") "*" ++ "." ++ T := by
  unfold strings.Split at hlen ⊢
  rw [List.length_map] at hlen
  obtain ⟨a, b, hab⟩ : ∃ a b, splitChars '.' ty.data = [a, b] := by
    match hs : splitChars '.' ty.data, hlen with
    | [a, b], _ => exact ⟨a, b, rfl⟩
  have hdata := splitChars_pair _ _ _ _ hab
  rw [hab]
  refine ⟨⟨b⟩, ?_⟩
  simp only [List.map_cons, List.map_nil, List.getD_cons_zero, strings.TrimLeft]
  rcases trimLeftChars_star a with h | h | ⟨rest, h⟩
  · left
    apply String.ext
    simp only [String.data_append]
    rw [← h, hdata]
    simp
  · right
    apply String.ext
    simp only [String.data_append]
    rw [hdata]
    conv_lhs => rw [h]
    simp
  · exfalso
    apply hty
    rw [hdata, h]
    exact ⟨rest ++ '.' :: b, rfl⟩

theorem mapGet_mapDelete {β : Type} (m : List (String × β)) (k key : String) :
    mapGet (mapDelete m k) key = if key = k then none else mapGet m key := by
  induction m with
  | nil => simp [mapDelete, mapGet]
  | cons kv m ih =>
    obtain ⟨k1, v1⟩ := kv
    unfold mapDelete
    by_cases h1 : k1 = k
    · rw [if_pos h1, ih]
      by_cases h2 : key = k
      · simp [h2]
      · have : ¬ k1 = key := fun h => h2 (h ▸ h1)
        simp [h2, mapGet, this]
    · rw [if_neg h1]
      unfold mapGet
      by_cases h3 : k1 = key
      · have : ¬ key = k := fun h => h1 (h3.trans h)
        simp [h3, this]
      · rw [if_neg h3, if_neg h3, ih]

theorem mapGet_of_mapDelete {β : Type} (m : List (String × β)) (k key : String) (v : β)
    (h : mapGet (mapDelete m k) key = some v) : mapGet m key = some v := by
  rw [mapGet_mapDelete] at h
  by_cases hk : key = k
  · simp [hk] at h
  · simpa [hk] using h

/-- The flattened form of the two nested loops. -/
theorem claimAll_eq (order : MetaTable) (st : ResolveState) :
    claimAll order st = ((order.map Prod.snd).flatten).foldl claimImport st := by
  unfold claimAll
  induction order generalizing st with
  | nil => rfl
  | cons e es ih =>
    simp only [List.foldl_cons, List.map_cons, List.flatten_cons, List.foldl_append]
    exact ih _

theorem mem_fields_iff (order : MetaTable) (m : Meta) :
    m ∈ (order.map Prod.snd).flatten ↔ ∃ entry ∈ order, m ∈ entry.2 := by
  simp only [List.mem_flatten, List.mem_map]
  constructor
  · rintro ⟨l, ⟨e, he, rfl⟩, hm⟩
    exact ⟨e, he, hm⟩
  · rintro ⟨e, he, hm⟩
    exact ⟨e.2, ⟨e, he, rfl⟩, hm⟩

theorem foldl_claimImport_inv (Inv : ResolveState → Prop) (fields : List Meta)
    (hstep : ∀ m ∈ fields, ∀ st, Inv st → Inv (claimImport st m))
    (st : ResolveState) (h : Inv st) : Inv (fields.foldl claimImport st) := by
  induction fields generalizing st with
  | nil => exact h
  | cons m ms ih =>
    exact ih (fun m1 hm1 => hstep m1 (List.mem_cons_of_mem _ hm1)) _
      (hstep m (List.mem_cons_self _ _) st h)

/-- What one step of the loop does, by cases. -/
theorem claimImport_cases (st : ResolveState) (s : Meta) :
    claimImport st s = st ∨
    ∃ pth, (strings.Split s.fieldType '.').length = 2 ∧
      mapGet st.imports (strings.TrimLeft ((strings.Split s.fieldType '.').getD 0 "") "*") = some pth ∧
      claimImport st s =
        { imports := mapDelete st.imports (strings.TrimLeft ((strings.Split s.fieldType '.').getD 0 "") "*")
          pkgName := strings.TrimLeft ((strings.Split s.fieldType '.').getD 0 "") "*"
          imported := st.imported ++
            [⟨if strings.TrimLeft ((strings.Split s.fieldType '.').getD 0 "") "*" =
                  path.Base (strings.Trim pth "\"") then ""
                else strings.TrimLeft ((strings.Split s.fieldType '.').getD 0 "") "*", pth⟩] } := by
  by_cases hlen : (strings.Split s.fieldType '.').length = 2
  · cases hg : mapGet st.imports (strings.TrimLeft ((strings.Split s.fieldType '.').getD 0 "") "*") with
    | none =>
      left
      unfold claimImport
      rw [if_pos hlen]
      dsimp only
      rw [hg]
    | some pth =>
      right
      refine ⟨pth, hlen, rfl, ?_⟩
      unfold claimImport
      rw [if_pos hlen]
      dsimp only
      rw [hg]
  · left
    unfold claimImport
    rw [if_neg hlen]

theorem split_qualified (P T : String) (hP : '.' ∉ P.data) (hT : '.' ∉ T.data) :
    strings.Split (P ++ "." ++ T) '.' = [P, T] := by
  unfold strings.Split
  have : (P ++ "." ++ T).data = P.data ++ '.' :: T.data := by
    simp [String.data_append]
  rw [this, splitChars_append _ _ _ hP, splitChars_no_sep _ _ hT]
  rfl

theorem trimLeft_plain (P : String) (hP : '*' ∉ P.data) : strings.TrimLeft P "*" = P := by
  unfold strings.TrimLeft
  apply String.ext
  show trimLeftChars ['*'] P.data = P.data
  apply trimLeftChars_of_not_mem
  intro c hc hmem
  simp only [List.mem_singleton] at hmem
  exact hP (hmem ▸ hc)

theorem trimLeft_star (P : String) (hP : '*' ∉ P.data) :
    strings.TrimLeft ("*" ++ P) "*" = P := by
  unfold strings.TrimLeft
  apply String.ext
  show trimLeftChars ['*'] ("*" ++ P).data = P.data
  have : ("*" ++ P).data = '*' :: P.data := by simp [String.data_append]
  rw [this]
  have h2 : trimLeftChars ['*'] ('*' :: P.data) = trimLeftChars ['*'] P.data := by
    simp [trimLeftChars]
  rw [h2]
  apply trimLeftChars_of_not_mem
  intro c hc hmem
  simp only [List.mem_singleton] at hmem
  exact hP (hmem ▸ hc)

/-- The step of the loop on a field of type `P.T` or `*P.T`. -/
theorem claimImport_qualified (st : ResolveState) (m : Meta) (P T : String)
    (hdot : '.' ∉ P.data) (hstar : '*' ∉ P.data) (hT : '.' ∉ T.data)
    (hty : m.fieldType = P ++ "." ++ T ∨ m.fieldType = "*" ++ P ++ "." ++ T) :
    claimImport st m =
      match mapGet st.imports P with
      | some pth =>
        { imports := mapDelete st.imports P
          pkgName := P
          imported := st.imported ++
            [⟨if P = path.Base (strings.Trim pth "\"") then "" else P, pth⟩] }
      | none => st := by
  have hsplit : (strings.Split m.fieldType '.').length = 2 ∧
      strings.TrimLeft ((strings.Split m.fieldType '.').getD 0 "") "*" = P := by
    rcases hty with h | h
    · rw [h, split_qualified P T hdot hT]
      exact ⟨rfl, trimLeft_plain P hstar⟩
    · have hsP : '.' ∉ ("*" ++ P).data := by
        simp only [String.data_append, List.mem_append, not_or]
        exact ⟨by decide, hdot⟩
      rw [h, split_qualified ("*" ++ P) T hsP hT]
      exact ⟨rfl, trimLeft_star P hstar⟩
  unfold claimImport
  rw [if_pos hsplit.1]
  dsimp only
  rw [hsplit.2]

theorem claimImport_imported_mono (st : ResolveState) (s : Meta) (e : Import)
    (he : e ∈ st.imported) : e ∈ (claimImport st s).imported := by
  rcases claimImport_cases st s with h | ⟨pth, -, -, h⟩
  · rw [h]; exact he
  · rw [h]; exact List.mem_append_left _ he

/-- Every claimed entry has the path of an alias that survived the three deletions. -/
theorem claimed_entries_origin (imports : ImportTable) (order : MetaTable) :
    ∀ e ∈ (claimAll order
        ⟨mapDelete (mapDelete (mapDelete imports "encoding/json") "errors") "strconv",
          "blah", []⟩).imported,
      ∃ k, k ≠ "encoding/json" ∧ k ≠ "errors" ∧ k ≠ "strconv" ∧
        mapGet imports k = some e.Path := by
  rw [claimAll_eq]
  have key := foldl_claimImport_inv
    (fun st => (∀ k v, mapGet st.imports k = some v →
        k ≠ "encoding/json" ∧ k ≠ "errors" ∧ k ≠ "strconv" ∧ mapGet imports k = some v) ∧
      ∀ e ∈ st.imported, ∃ k, k ≠ "encoding/json" ∧ k ≠ "errors" ∧ k ≠ "strconv" ∧
        mapGet imports k = some e.Path)
    ((order.map Prod.snd).flatten) ?_
    ⟨mapDelete (mapDelete (mapDelete imports "encoding/json") "errors") "strconv", "blah", []⟩ ?_
  · exact key.2
  · intro m _ st ⟨hsub, himp⟩
    rcases claimImport_cases st m with h | ⟨pth, -, hget, h⟩
    · rw [h]; exact ⟨hsub, himp⟩
    · rw [h]
      refine ⟨fun k v hk => hsub k v (mapGet_of_mapDelete _ _ _ _ hk), ?_⟩
      intro e he
      rcases List.mem_append.mp he with h1 | h1
      · exact himp e h1
      · simp only [List.mem_singleton] at h1
        obtain ⟨h1a, h1b, h1c, h1d⟩ := hsub _ _ hget
        exact ⟨_, h1a, h1b, h1c, by rw [h1]; exact h1d⟩
  · refine ⟨?_, by simp⟩
    intro k v hk
    rw [mapGet_mapDelete] at hk
    by_cases h3 : k = "strconv"
    · simp [h3] at hk
    rw [if_neg h3, mapGet_mapDelete] at hk
    by_cases h2 : k = "errors"
    · simp [h2] at hk
    rw [if_neg h2, mapGet_mapDelete] at hk
    by_cases h1 : k = "encoding/json"
    · simp [h1] at hk
    rw [if_neg h1] at hk
    exact ⟨h1, h2, h3, hk⟩

/-! ## The field types the walker builds -/

theorem mapGet_mem {β : Type} (m : List (String × β)) (k : String) (v : β)
    (h : mapGet m k = some v) : (k, v) ∈ m := by
  induction m with
  | nil => simp [mapGet] at h
  | cons kv m ih =>
    obtain ⟨k1, v1⟩ := kv
    unfold mapGet at h
    by_cases hk : k1 = k
    · rw [if_pos hk] at h
      cases h
      simp [hk]
    · rw [if_neg hk] at h
      exact List.mem_cons_of_mem _ (ih h)

theorem mem_mapSet {β : Type} (m : List (String × β)) (k : String) (v : β)
    (e : String × β) (h : e ∈ mapSet m k v) : e ∈ m ∨ e = (k, v) := by
  induction m with
  | nil => right; simpa [mapSet] using h
  | cons kv m ih =>
    obtain ⟨k1, v1⟩ := kv
    unfold mapSet at h
    by_cases hk : k1 = k
    · rw [if_pos hk] at h
      rcases List.mem_cons.mp h with h | h
      · right; rw [h, hk]
      · left; exact List.mem_cons_of_mem _ h
    · rw [if_neg hk] at h
      rcases List.mem_cons.mp h with h | h
      · left; rw [h]; exact List.mem_cons_self _ _
      · rcases ih h with h | h
        · left; exact List.mem_cons_of_mem _ h
        · right; exact h

theorem appendMeta_shape (st : WalkState) (m : Meta) (hst : tableShape st.mlist)
    (hm : ¬ ("**".data <+: m.fieldType.data)) : tableShape (appendMeta st m).mlist := by
  intro entry hentry m1 hm1
  rcases mem_mapSet _ _ _ _ hentry with h | h
  · exact hst entry h m1 hm1
  · rw [h] at hm1
    rcases List.mem_append.mp hm1 with h1 | h1
    · cases hg : mapGet st.mlist st.identity with
      | none => rw [hg] at h1; simp at h1
      | some l =>
        rw [hg] at h1
        exact hst _ (mapGet_mem _ _ _ hg) m1 h1
    · simp only [List.mem_singleton] at h1
      rw [h1]; exact hm

theorem star_prefix_qualified (x sel : String) (hx : ¬ ("*".data <+: x.data)) :
    ¬ ("**".data <+: (x ++ "." ++ sel).data) := by
  intro h
  apply hx
  obtain ⟨t, ht⟩ := h
  have hd : (x ++ "." ++ sel).data = x.data ++ ('.' :: sel.data) := by simp [String.data_append]
  rw [hd] at ht
  cases hxd : x.data with
  | nil => rw [hxd] at ht; simp at ht
  | cons c cs =>
    rw [hxd] at ht
    have : c = '*' := by
      have := (List.cons.inj ht).1
      exact this.symm
    exact ⟨cs, by rw [this]; rfl⟩

theorem star_prefix_pointer (x sel : String) (hx : ¬ ("*".data <+: x.data)) :
    ¬ ("**".data <+: ("*" ++ x ++ "." ++ sel).data) := by
  intro h
  apply hx
  obtain ⟨t, ht⟩ := h
  have hd : ("*" ++ x ++ "." ++ sel).data = '*' :: (x.data ++ ('.' :: sel.data)) := by
    simp [String.data_append]
  rw [hd] at ht
  cases hxd : x.data with
  | nil => rw [hxd] at ht; simp at ht
  | cons c cs =>
    rw [hxd] at ht
    have : c = '*' := by
      have := (List.cons.inj (List.cons.inj ht).2).1
      exact this.symm
    exact ⟨cs, by rw [this]; rfl⟩

theorem visitField_shape (fileName : String) (filter : Filter) (f : Field) (st st1 : WalkState)
    (hf : Field.plain f = true) (hst : tableShape st.mlist)
    (h : visitField fileName filter f st = some st1) : tableShape st1.mlist := by
  obtain ⟨names, typ, tag⟩ := f
  cases tag with
  | none => simp [visitField] at h
  | some value =>
    by_cases ht : tagName value = ""
    · simp only [visitField, ht, if_true, Option.some.injEq] at h
      rw [← h]; exact hst
    · cases names with
      | nil =>
        simp only [visitField, ht, if_false, Option.some.injEq] at h
        rw [← h]; exact hst
      | cons name rest =>
        cases typ with
        | selector x sel =>
          simp only [visitField, ht, if_false] at h
          have hx : ¬ ("*".data <+: x.data) := by
            intro hp
            have hb := List.isPrefixOf_iff_prefix.mpr hp
            simp [Field.plain, hb] at hf
          split at h
          · cases h; exact appendMeta_shape _ _ hst (star_prefix_qualified x sel hx)
          · cases h; exact hst
        | star inner =>
          cases inner with
          | selector x sel =>
            simp only [visitField, ht, if_false] at h
            have hx : ¬ ("*".data <+: x.data) := by
              intro hp
              have hb := List.isPrefixOf_iff_prefix.mpr hp
              simp [Field.plain, hb] at hf
            split at h
            · cases h; exact appendMeta_shape _ _ hst (star_prefix_pointer x sel hx)
            · cases h; exact hst
          | star _ => simp only [visitField, ht, if_false, Option.some.injEq] at h; rw [← h]; exact hst
          | ident _ => simp only [visitField, ht, if_false, Option.some.injEq] at h; rw [← h]; exact hst
          | array => simp only [visitField, ht, if_false, Option.some.injEq] at h; rw [← h]; exact hst
          | other => simp only [visitField, ht, if_false, Option.some.injEq] at h; rw [← h]; exact hst
        | ident n =>
          simp only [visitField, ht, if_false, Option.some.injEq] at h
          have hn : ¬ ("**".data <+: n.data) := by
            intro hp
            have hb := List.isPrefixOf_iff_prefix.mpr hp
            simp [Field.plain, hb] at hf
          rw [← h]; exact appendMeta_shape _ _ hst hn
        | array => simp only [visitField, ht, if_false, Option.some.injEq] at h; rw [← h]; exact hst
        | other => simp only [visitField, ht, if_false, Option.some.injEq] at h; rw [← h]; exact hst

theorem visitFields_shape (fileName : String) (filter : Filter) (fs : List Field)
    (st st1 : WalkState) (hf : ∀ f ∈ fs, Field.plain f = true) (hst : tableShape st.mlist)
    (h : visitFields fileName filter fs st = some st1) : tableShape st1.mlist := by
  induction fs generalizing st with
  | nil => simp only [visitFields, Option.some.injEq] at h; rw [← h]; exact hst
  | cons f fs ih =>
    unfold visitFields at h
    cases hv : visitField fileName filter f st with
    | none => rw [hv] at h; cases h
    | some st2 =>
      rw [hv] at h
      exact ih st2 (fun g hg => hf g (List.mem_cons_of_mem _ hg))
        (visitField_shape fileName filter f st st2 (hf f (List.mem_cons_self _ _)) hst hv) h

mutual
theorem walkNode_shape (fileName : String) (filter : Filter) (n : Node) (st st1 : WalkState)
    (hn : Node.plain n = true) (hst : tableShape st.mlist)
    (h : walkNode fileName filter n st = some st1) : tableShape st1.mlist := by
  cases n with
  | importSpec name pth =>
    cases name with
    | none => simp only [walkNode, Option.some.injEq] at h; rw [← h]; exact hst
    | some nm => simp only [walkNode, Option.some.injEq] at h; rw [← h]; exact hst
  | ident name => simp only [walkNode, Option.some.injEq] at h; rw [← h]; exact hst
  | structType fields =>
    simp only [walkNode] at h
    simp only [Node.plain, List.all_eq_true] at hn
    exact visitFields_shape fileName filter fields st st1 hn hst h
  | other children =>
    simp only [walkNode] at h
    simp only [Node.plain] at hn
    exact walkList_shape fileName filter children st st1 hn hst h
theorem walkList_shape (fileName : String) (filter : Filter) (ns : List Node)
    (st st1 : WalkState) (hn : Node.plainList ns = true) (hst : tableShape st.mlist)
    (h : walkList fileName filter ns st = some st1) : tableShape st1.mlist := by
  cases ns with
  | nil => simp only [walkList, Option.some.injEq] at h; rw [← h]; exact hst
  | cons n ns =>
    simp only [walkList] at h
    simp only [Node.plainList, Bool.and_eq_true] at hn
    cases hv : walkNode fileName filter n st with
    | none => rw [hv] at h; cases h
    | some st2 =>
      rw [hv] at h
      exact walkList_shape fileName filter ns st2 st1 hn.2
        (walkNode_shape fileName filter n st st2 hn.1 hst hv) h
end

/-- The metadata table of a walk has the shape the resolver's theorems ask for. -/
theorem inspectFile_shape (fileName : String) (filter : Filter) (f : File) (st : WalkState)
    (hf : Node.plainList f.Decls = true) (h : inspectFile fileName filter f = some st) :
    tableShape st.mlist := by
  unfold inspectFile at h
  apply walkList_shape fileName filter _ _ st _ _ h
  · simp only [Node.plainList, Node.plain, Bool.true_and]; exact hf
  · intro entry hentry; simp at hentry

/-! ## The behaviour of `ParseFile` after a walk that did not panic -/

/-- After a walk that ends without a panic and without a FieldMeta, `ParseFile` returns nil
    and the saver is not called. -/
theorem ParseFile_of_empty_walk (fileName : String) (f : File) (filter : Option Filter)
    (saver : Saver) (rangeOrder : MetaTable → MetaTable) (st : WalkState)
    (hwalk : inspectFile fileName (filter.getD nullFilter) f = some st)
    (hempty : st.mlist = []) :
    ParseFile fileName f filter saver rangeOrder = .returned [] none := by
  cases filter <;> simp_all [ParseFile]

/-- After a walk that ends without a panic and with a FieldMeta, `ParseFile` calls the saver
    once and returns what the saver returns. -/
theorem ParseFile_of_nonempty_walk (fileName : String) (f : File) (filter : Option Filter)
    (saver : Saver) (rangeOrder : MetaTable → MetaTable) (st : WalkState)
    (hwalk : inspectFile fileName (filter.getD nullFilter) f = some st)
    (hne : st.mlist ≠ []) :
    ParseFile fileName f filter saver rangeOrder =
      .returned
        [⟨fileName, (resolveImports st.imports (rangeOrder st.mlist)).1,
          (resolveImports st.imports (rangeOrder st.mlist)).2, st.mlist⟩]
        (saver fileName (resolveImports st.imports (rangeOrder st.mlist)).1
          (resolveImports st.imports (rangeOrder st.mlist)).2 st.mlist) := by
  cases filter <;> simp_all [ParseFile]

/-- A walk panics as soon as a struct type it reaches has a field without tag. -/
theorem visitFields_untagged (fileName : String) (filter : Filter) (fs : List Field)
    (st : WalkState) (f : Field) (hf : f ∈ fs) (htag : f.Tag = none) :
    visitFields fileName filter fs st = none := by
  induction fs generalizing st with
  | nil => simp at hf
  | cons g gs ih =>
    unfold visitFields
    cases hv : visitField fileName filter g st with
    | none => rfl
    | some st1 =>
      rcases List.mem_cons.mp hf with h | h
      · subst h
        simp [visitField, htag] at hv
      · exact ih st1 h

/-! ## Two defects of the code, at concrete inputs -/

/-- On the tag `protobuf:"bytes,1,opt,name=user_id,proto3"` the function `tagName` returns
    `user`: the class after the first character of the group has no underscore. -/
theorem tagName_stops_at_underscore :
    tagName "protobuf:\"bytes,1,opt,name=user_id,proto3\"" = "user" := by
  decide

/-- For `event.go`, which imports `encoding/json` without an alias and has a field of type
    `json.RawMessage`, the walk records the alias `json`, and the resolved import list has
    the entry `"encoding/json"` twice: the key deleted is `encoding/json`, the key recorded
    is `json`. -/
theorem json_import_resolved_twice :
    inspectFile "event.go" nullFilter eventFile =
        some ⟨[("json", "\"encoding/json\"")],
          [("Event", [⟨"Payload", "json.RawMessage", "payload"⟩])], "Event"⟩ ∧
      (resolveImports [("json", "\"encoding/json\"")]
          [("Event", [⟨"Payload", "json.RawMessage", "payload"⟩])]).2 =
        [⟨"", "\"encoding/json\""⟩, ⟨"", "\"encoding/json\""⟩, ⟨"", "\"errors\""⟩,
          ⟨"", "\"strconv\""⟩] := by
  decide

/-! ## Lemmas on the code synthesizer -/

theorem foldl_append_string (init : String) (l : List String) :
    l.foldl (fun a b => a ++ b) init = init ++ String.join l := by
  induction l generalizing init with
  | nil => simp [String.join]
  | cons x xs ih =>
    have h1 := ih (init ++ x)
    have h2 := ih ("" ++ x)
    simp only [List.foldl_cons, String.join] at h1 h2 ⊢
    rw [h1, h2]
    simp [String.append_assoc]

theorem join_cons (x : String) (xs : List String) :
    String.join (x :: xs) = x ++ String.join xs := by
  have h := foldl_append_string ("" ++ x) xs
  simp only [String.join, List.foldl_cons]
  simpa using h

theorem join_nil : String.join [] = "" := rfl

theorem foldl_emit {α : Type} (f : α → String) (init : String) (l : List α) :
    l.foldl (fun w m => w ++ f m) init = init ++ String.join (l.map f) := by
  induction l generalizing init with
  | nil => simp [join_nil]
  | cons x xs ih =>
    simp only [List.foldl_cons, List.map_cons, join_cons, ih, String.append_assoc]

theorem setStrLabel_eq (m : Meta) :
    setStrLabel m = "\tcase \"" ++ m.tagName ++ "\":  // (" ++ m.fieldType ++ ")\n" := by
  apply String.ext
  simp [setStrLabel, fmt.Sprintf, sprintfChars]

theorem setStrHead_eq (name : String) :
    fmt.Sprintf setStrHead [name] =
      "\n// SetString sets the named element using the given string\nfunc (s *" ++ name ++
        ") SetString(name, value string) error \x7b\n\tvar err error\n\tswitch name \x7b\n" := by
  apply String.ext
  simp [setStrHead, fmt.Sprintf, sprintfChars]

theorem setStrTail_eq : fmt.Sprintf setStrTail [] = setStrTail := by
  decide

theorem setStrBody_int (m : Meta) (h : m.fieldType = "int") :
    setStrBody m = "\t\ts." ++ m.fieldName ++ ", err = strconv.Atoi(value)\n" := by
  unfold setStrBody
  have hp : strings.HasPrefix "int" "*" = false := by decide
  simp only [h, hp]
  apply String.ext
  simp [line, fmt.Sprintf, sprintfChars]

/-- What `strconv.Atoi` returns with an error. -/
theorem Atoi_error (value : String) (e : NumError) (h : (strconv.Atoi value).2 = some e) :
    (e = .ErrSyntax → (strconv.Atoi value).1 = 0) ∧
      (e = .ErrRange → (strconv.Atoi value).1 = 2 ^ 63 - 1 ∨ (strconv.Atoi value).1 = -(2 ^ 63)) := by
  unfold strconv.Atoi at h ⊢
  cases hs : value.data with
  | nil =>
    rw [hs] at h
    simp only [Option.some.injEq] at h
    subst h
    simp
  | cons c cs =>
    rw [hs] at h
    dsimp only at h ⊢
    generalize strconv.ParseUint (if c = '+' ∨ c = '-' then cs else c :: cs) = r at h ⊢
    by_cases h1 : r.2 = some NumError.ErrSyntax
    · rw [if_pos h1] at h ⊢
      simp only [Option.some.injEq] at h
      subst h
      simp
    · rw [if_neg h1] at h ⊢
      by_cases h2 : (!decide (c = '-') && decide (r.1 ≥ 2 ^ 63)) = true
      · rw [if_pos h2] at h ⊢
        simp only [Option.some.injEq] at h
        subst h
        simp
      · rw [if_neg h2] at h ⊢
        by_cases h3 : (decide (c = '-') && decide (r.1 > 2 ^ 63)) = true
        · rw [if_pos h3] at h ⊢
          simp only [Option.some.injEq] at h
          subst h
          simp
        · rw [if_neg h3] at h
          simp at h

/-- Once the type is in `ptrs`, the loop over the fields writes setters only. -/
theorem foldl_emitField_seen (name : String) (w : String) (ptrs : List String)
    (l : List Meta) (h : ptrs.contains name = true) :
    l.foldl (emitField name) (w, ptrs) =
      (w ++ String.join (l.map (fun x => SetField name x.fieldName x.fieldType)), ptrs) := by
  induction l generalizing w with
  | nil => simp [join_nil]
  | cons m ms ih =>
    simp only [List.foldl_cons, List.map_cons, join_cons]
    have hstep : emitField name (w, ptrs) m = (w ++ SetField name m.fieldName m.fieldType, ptrs) := by
      simp only [emitField, h, if_true]
    rw [hstep, ih, String.append_assoc]

/-- The loop over one type whose name is not yet in `ptrs`. -/
theorem emitType_block (w : String) (ptrs : List String) (name : String) (m : Meta)
    (rest : List Meta) (h : ptrs.contains name = false) :
    emitType (w, ptrs) (name, m :: rest) =
      (w ++ (SetField name m.fieldName m.fieldType ++ PtrFunc name ++
          String.join (rest.map (fun x => SetField name x.fieldName x.fieldType)) ++
          setStr name (m :: rest)), name :: ptrs) := by
  have hstep : emitField name (w, ptrs) m =
      (w ++ SetField name m.fieldName m.fieldType ++ PtrFunc name, name :: ptrs) := by
    simp only [emitField, h, Bool.false_eq_true, if_false]
  have hseen : (name :: ptrs).contains name = true := by simp
  simp only [emitType, List.foldl_cons, hstep, foldl_emitField_seen _ _ _ _ hseen,
    String.append_assoc]

/-- The set `ptrs` holds names of types already written only. -/
theorem emitField_ptrs (name : String) (acc : String × List String) (m : Meta) (x : String)
    (hx : x ∈ (emitField name acc m).2) : x ∈ acc.2 ∨ x = name := by
  unfold emitField at hx
  dsimp only at hx
  split at hx
  · exact Or.inl hx
  · rcases List.mem_cons.mp hx with h | h
    · exact Or.inr h
    · exact Or.inl h

theorem foldl_emitField_ptrs (name : String) (l : List Meta) (acc : String × List String)
    (x : String) (hx : x ∈ (l.foldl (emitField name) acc).2) : x ∈ acc.2 ∨ x = name := by
  induction l generalizing acc with
  | nil => exact Or.inl hx
  | cons m ms ih =>
    rcases ih _ hx with h | h
    · exact emitField_ptrs name acc m x h
    · exact Or.inr h

theorem foldl_emitType_ptrs (l : MetaTable) (acc : String × List String) (x : String)
    (hx : x ∈ (l.foldl emitType acc).2) : x ∈ acc.2 ∨ x ∈ l.map Prod.fst := by
  induction l generalizing acc with
  | nil => exact Or.inl hx
  | cons e es ih =>
    rcases ih _ hx with h | h
    · rcases foldl_emitField_ptrs e.1 e.2 acc x h with h1 | h1
      · exact Or.inl h1
      · exact Or.inr (by simp [h1])
    · exact Or.inr (by simp only [List.map_cons, List.mem_cons]; exact Or.inr h)

/-- Text once written stays: the loops only append. -/
theorem emitField_extends (name : String) (acc : String × List String) (m : Meta) :
    ∃ t, (emitField name acc m).1 = acc.1 ++ t := by
  unfold emitField
  dsimp only
  split
  · exact ⟨_, rfl⟩
  · exact ⟨SetField name m.fieldName m.fieldType ++ PtrFunc name, by simp [String.append_assoc]⟩

theorem foldl_emitField_extends (name : String) (l : List Meta) (acc : String × List String) :
    ∃ t, (l.foldl (emitField name) acc).1 = acc.1 ++ t := by
  induction l generalizing acc with
  | nil => exact ⟨"", by simp⟩
  | cons m ms ih =>
    obtain ⟨t1, h1⟩ := emitField_extends name acc m
    obtain ⟨t2, h2⟩ := ih (emitField name acc m)
    exact ⟨t1 ++ t2, by rw [List.foldl_cons, h2, h1, String.append_assoc]⟩

theorem foldl_emitType_extends (l : MetaTable) (acc : String × List String) :
    ∃ t, (l.foldl emitType acc).1 = acc.1 ++ t := by
  induction l generalizing acc with
  | nil => exact ⟨"", by simp⟩
  | cons e es ih =>
    obtain ⟨t1, h1⟩ := foldl_emitField_extends e.1 e.2 acc
    obtain ⟨t2, h2⟩ := ih (emitType acc e)
    refine ⟨t1 ++ setStr e.1 e.2 ++ t2, ?_⟩
    rw [List.foldl_cons, h2]
    simp only [emitType, h1, String.append_assoc]

/-! ## The aliases the import loop claims, and the resolved list -/

/-- One step of the loop, in terms of the alias asked for. -/
theorem claimImport_eq (st : ResolveState) (m : Meta) :
    claimImport st m =
      match claimKey m with
      | none => st
      | some pkg =>
        match mapGet st.imports pkg with
        | none => st
        | some _ =>
          { imports := mapDelete st.imports pkg
            pkgName := pkg
            imported := st.imported ++ [entryOf st.imports pkg] } := by
  unfold claimImport claimKey
  by_cases hlen : (strings.Split m.fieldType '.').length = 2
  · rw [if_pos hlen, if_pos hlen]
    dsimp only
    cases hg : mapGet st.imports
        (strings.TrimLeft ((strings.Split m.fieldType '.').getD 0 "") "*") with
    | none => rfl
    | some pth => simp only [entryOf, hg, Option.getD_some]
  · rw [if_neg hlen, if_neg hlen]

/-- The aliases claimed by a run of the loop: each once, those of the table that some
    FieldMeta asks for; the entries appended are theirs, in the order of the claims. -/
theorem claim_fold (fields : List Meta) (tbl : ImportTable) (pn : String) (acc : Imports) :
    ∃ ks : List String, ks.Nodup ∧
      (fields.foldl claimImport ⟨tbl, pn, acc⟩).imported = acc ++ ks.map (entryOf tbl) ∧
      ∀ P, P ∈ ks ↔ (mapGet tbl P).isSome = true ∧ ∃ m ∈ fields, claimKey m = some P := by
  induction fields generalizing tbl pn acc with
  | nil => exact ⟨[], List.nodup_nil, by simp, by simp⟩
  | cons m ms ih =>
    rw [List.foldl_cons, claimImport_eq]
    dsimp only
    cases hk : claimKey m with
    | none =>
      dsimp only
      obtain ⟨ks, hnd, himp, hmem⟩ := ih tbl pn acc
      refine ⟨ks, hnd, himp, fun P => ?_⟩
      rw [hmem P]
      constructor
      · rintro ⟨h1, x, hx, hxk⟩
        exact ⟨h1, x, List.mem_cons_of_mem _ hx, hxk⟩
      · rintro ⟨h1, x, hx, hxk⟩
        rcases List.mem_cons.mp hx with rfl | hx
        · rw [hk] at hxk; cases hxk
        · exact ⟨h1, x, hx, hxk⟩
    | some pkg =>
      dsimp only
      cases hg : mapGet tbl pkg with
      | none =>
        dsimp only
        obtain ⟨ks, hnd, himp, hmem⟩ := ih tbl pn acc
        refine ⟨ks, hnd, himp, fun P => ?_⟩
        rw [hmem P]
        constructor
        · rintro ⟨h1, x, hx, hxk⟩
          exact ⟨h1, x, List.mem_cons_of_mem _ hx, hxk⟩
        · rintro ⟨h1, x, hx, hxk⟩
          rcases List.mem_cons.mp hx with rfl | hx
          · rw [hk] at hxk
            cases hxk
            rw [hg] at h1; cases h1
          · exact ⟨h1, x, hx, hxk⟩
      | some pth =>
        dsimp only
        obtain ⟨ks, hnd, himp, hmem⟩ := ih (mapDelete tbl pkg) pkg (acc ++ [entryOf tbl pkg])
        have hnot : pkg ∉ ks := by
          intro h
          have := ((hmem pkg).mp h).1
          rw [mapGet_mapDelete, if_pos rfl] at this
          cases this
        have hentry : ∀ P ∈ ks, entryOf (mapDelete tbl pkg) P = entryOf tbl P := by
          intro P hP
          have hne : P ≠ pkg := fun h => hnot (h ▸ hP)
          simp only [entryOf, mapGet_mapDelete, if_neg hne]
        refine ⟨pkg :: ks, List.nodup_cons.mpr ⟨hnot, hnd⟩, ?_, fun P => ?_⟩
        · rw [himp, List.map_congr_left hentry]
          simp
        · constructor
          · intro hP
            rcases List.mem_cons.mp hP with rfl | hP
            · exact ⟨by rw [hg]; rfl, m, List.mem_cons_self _ _, hk⟩
            · obtain ⟨h1, x, hx, hxk⟩ := (hmem P).mp hP
              have hne : P ≠ pkg := fun h => hnot (h ▸ hP)
              rw [mapGet_mapDelete, if_neg hne] at h1
              exact ⟨h1, x, List.mem_cons_of_mem _ hx, hxk⟩
          · rintro ⟨h1, x, hx, hxk⟩
            by_cases hne : P = pkg
            · rw [hne]; exact List.mem_cons_self _ _
            · refine List.mem_cons_of_mem _ ((hmem P).mpr ⟨?_, ?_⟩)
              · rw [mapGet_mapDelete, if_neg hne]; exact h1
              · rcases List.mem_cons.mp hx with rfl | hx
                · rw [hk] at hxk
                  exact absurd (Option.some.inj hxk).symm hne
                · exact ⟨x, hx, hxk⟩

/-- The aliases claimed by `resolveImports`. -/
theorem resolve_claimed (imports : ImportTable) (order : MetaTable) :
    ∃ ks : List String, ks.Nodup ∧
      (resolveImports imports order).2.Perm
        (ks.map (entryOf (mapDelete (mapDelete (mapDelete imports "encoding/json") "errors")
          "strconv")) ++ fixedImports) ∧
      ∀ P, P ∈ ks ↔
        (mapGet (mapDelete (mapDelete (mapDelete imports "encoding/json") "errors") "strconv")
          P).isSome = true ∧
        ∃ entry ∈ order, ∃ m ∈ entry.2, claimKey m = some P := by
  obtain ⟨ks, hnd, himp, hmem⟩ := claim_fold ((order.map Prod.snd).flatten)
    (mapDelete (mapDelete (mapDelete imports "encoding/json") "errors") "strconv") "blah" []
  refine ⟨ks, hnd, ?_, fun P => ?_⟩
  · unfold resolveImports
    dsimp only
    rw [claimAll_eq, himp]
    simpa using sortSort_perm _
  · rw [hmem P]
    constructor
    · rintro ⟨h1, m, hm, hk⟩
      obtain ⟨entry, he, hme⟩ := (mem_fields_iff order m).mp hm
      exact ⟨h1, entry, he, m, hme, hk⟩
    · rintro ⟨h1, entry, he, m, hme, hk⟩
      exact ⟨h1, m, (mem_fields_iff order m).mpr ⟨entry, he, hme⟩, hk⟩

theorem trimLeftChars_no_star (a : List Char) (h : ¬ ("*".data <+: a)) :
    trimLeftChars ['*'] a = a := by
  cases a with
  | nil => rfl
  | cons c cs =>
    have hc : c ≠ '*' := fun e => h ⟨cs, by rw [e]; rfl⟩
    simp [trimLeftChars, hc]

/-- The alias a field of type `P.T` or `*P.T` asks for is `P`. -/
theorem claimKey_qualified (m : Meta) (P T : String) (hdot : '.' ∉ P.data)
    (hstar : ¬ ("*".data <+: P.data)) (hT : '.' ∉ T.data)
    (hty : m.fieldType = P ++ "." ++ T ∨ m.fieldType = "*" ++ P ++ "." ++ T) :
    claimKey m = some P := by
  unfold claimKey
  rcases hty with h | h
  · rw [h, split_qualified P T hdot hT]
    simp only [List.length_cons, List.length_nil, List.getD_cons_zero, if_true]
    congr 1
    apply String.ext
    exact trimLeftChars_no_star _ hstar
  · have hsP : '.' ∉ ("*" ++ P).data := by
      simp only [String.data_append, List.mem_append, not_or]
      exact ⟨by decide, hdot⟩
    rw [h, split_qualified ("*" ++ P) T hsP hT]
    simp only [List.length_cons, List.length_nil, List.getD_cons_zero, if_true]
    congr 1
    apply String.ext
    show trimLeftChars ['*'] ("*" ++ P).data = P.data
    have : ("*" ++ P).data = '*' :: P.data := by simp [String.data_append]
    rw [this]
    have h2 : trimLeftChars ['*'] ('*' :: P.data) = trimLeftChars ['*'] P.data := by
      simp [trimLeftChars]
    rw [h2]
    exact trimLeftChars_no_star _ hstar

/-- The type of a field that asks for an alias is `P.T` or `*P.T`. -/
theorem shape_of_claimKey (m : Meta) (P : String) (hty : ¬ ("**".data <+: m.fieldType.data))
    (h : claimKey m = some P) :
    ∃ T : String, m.fieldType = P ++ "." ++ T ∨ m.fieldType = "*" ++ P ++ "." ++ T := by
  unfold claimKey at h
  by_cases hlen : (strings.Split m.fieldType '.').length = 2
  · rw [if_pos hlen] at h
    obtain ⟨T, hT⟩ := split_shape m.fieldType hty hlen
    rw [Option.some.inj h] at hT
    exact ⟨T, hT⟩
  · rw [if_neg hlen] at h
    cases h

/-- With at most one dot in the type, `P.T` and `*P.T` have no dot in `P` nor in `T`. -/
theorem no_dot_of_count (a b : List Char) (h : (a ++ '.' :: b).count '.' ≤ 1) :
    '.' ∉ a ∧ '.' ∉ b := by
  rw [List.count_append, List.count_cons_self] at h
  constructor
  · apply List.count_eq_zero.mp; omega
  · apply List.count_eq_zero.mp; omega

theorem claimKey_iff_shape (m : Meta) (P : String)
    (hcount : m.fieldType.data.count '.' ≤ 1)
    (hty : ¬ ("**".data <+: m.fieldType.data)) (hstar : ¬ ("*".data <+: P.data)) :
    claimKey m = some P ↔
      ∃ T : String, m.fieldType = P ++ "." ++ T ∨ m.fieldType = "*" ++ P ++ "." ++ T := by
  constructor
  · exact shape_of_claimKey m P hty
  · rintro ⟨T, h | h⟩
    · have hd : m.fieldType.data = P.data ++ '.' :: T.data := by
        rw [h]; simp [String.data_append]
      rw [hd] at hcount
      obtain ⟨h1, h2⟩ := no_dot_of_count _ _ hcount
      exact claimKey_qualified m P T h1 hstar h2 (Or.inl h)
    · have hd : m.fieldType.data = ('*' :: P.data) ++ '.' :: T.data := by
        rw [h]; simp [String.data_append]
      rw [hd] at hcount
      obtain ⟨h1, h2⟩ := no_dot_of_count _ _ hcount
      have h1' : '.' ∉ P.data := fun hh => h1 (List.mem_cons_of_mem _ hh)
      exact claimKey_qualified m P T h1' hstar h2 (Or.inr h)

theorem fields_perm (order1 order2 : MetaTable) (h : order1.Perm order2) (P : String) :
    (∃ entry ∈ order1, ∃ m ∈ entry.2, claimKey m = some P) ↔
      ∃ entry ∈ order2, ∃ m ∈ entry.2, claimKey m = some P := by
  constructor
  · rintro ⟨e, he, m, hm, hk⟩
    exact ⟨e, h.mem_iff.mp he, m, hm, hk⟩
  · rintro ⟨e, he, m, hm, hk⟩
    exact ⟨e, h.mem_iff.mpr he, m, hm, hk⟩

theorem resolveImports_perm (imports : ImportTable) (order1 order2 : MetaTable)
    (h : order1.Perm order2) :
    (resolveImports imports order1).2.Perm (resolveImports imports order2).2 := by
  obtain ⟨ks1, hnd1, hperm1, hmem1⟩ := resolve_claimed imports order1
  obtain ⟨ks2, hnd2, hperm2, hmem2⟩ := resolve_claimed imports order2
  have hks : ks1.Perm ks2 := by
    rw [List.perm_ext_iff_of_nodup hnd1 hnd2]
    intro P
    rw [hmem1 P, hmem2 P, fields_perm order1 order2 h P]
  exact hperm1.trans (((hks.map _).append_right _).trans hperm2.symm)

/-- A list sorted by path whose paths are pairwise different is strictly sorted. -/
theorem strictly_sorted (l : Imports) (hchain : List.Chain' (fun a b => a.Path ≤ b.Path) l)
    (hnd : (l.map Import.Path).Nodup) :
    List.Pairwise (fun a b : Import => a.Path < b.Path) l := by
  haveI : IsTrans Import (fun a b => a.Path ≤ b.Path) :=
    ⟨fun _ _ _ hab hbc => le_trans hab hbc⟩
  have hle : List.Pairwise (fun a b : Import => a.Path ≤ b.Path) l :=
    List.chain'_iff_pairwise.mp hchain
  have hne : List.Pairwise (fun a b : Import => a.Path ≠ b.Path) l :=
    (List.pairwise_map (f := Import.Path) (R := fun x y => x ≠ y)).mp hnd
  exact (hle.and hne).imp (fun h => lt_of_le_of_ne h.1 h.2)

/-- The text of `SetField`, operands in place. -/
theorem SetField_eq (structName field kind : String) :
    SetField structName field kind =
      "\n// Set" ++ field ++ " sets " ++ field ++ "\nfunc (s *" ++ structName ++ ") Set" ++
        field ++ "(v " ++ kind ++ ") \x7b\n\ts." ++ field ++ " = v\n\x7d\n" := by
  apply String.ext
  simp [SetField, fmt.Sprintf, sprintfChars]

/-- The text of `PtrFunc`, operands in place. -/
theorem PtrFunc_eq (name : String) :
    PtrFunc name =
      "\n// Ptr returns a pointer to a copy of " ++ name ++ "\nfunc (s " ++ name ++
        ") Ptr() interface\x7b\x7d \x7b\n\treturn &s\n\x7d\n" := by
  apply String.ext
  simp [PtrFunc, fmt.Sprintf, sprintfChars]

/-- The text of `setStr`: head, one clause for each FieldMeta, tail. -/
theorem setStr_eq (name : String) (meta : List Meta) :
    setStr name meta =
      "\n// SetString sets the named element using the given string\nfunc (s *" ++ name ++
        ") SetString(name, value string) error \x7b\n\tvar err error\n\tswitch name \x7b\n" ++
      String.join (meta.map (fun m =>
        "\tcase \"" ++ m.tagName ++ "\":  // (" ++ m.fieldType ++ ")\n" ++ setStrBody m)) ++
      "\tdefault:\n\t\terr = errors.New(\"field does not exist:\" + name)\n\t\x7d\n\treturn err\n\x7d\n" := by
  unfold setStr
  have h := foldl_emit (fun m => setStrLabel m ++ setStrBody m) (fmt.Sprintf setStrHead [name]) meta
  simp only [← String.append_assoc] at h
  rw [h, setStrHead_eq, setStrTail_eq]
  simp only [setStrLabel_eq]
  rfl

/-- The text written while the loop of `fileSaver` handles one type that comes after the
    types `before`, none of which has its name. -/
theorem fileSaverText_snoc (osArgs : List String) (pkgName : String) (imports : Imports)
    (before : MetaTable) (name : String) (m : Meta) (rest : List Meta)
    (hnew : name ∉ before.map Prod.fst) :
    fileSaverText osArgs pkgName imports (before ++ [(name, m :: rest)]) =
      fileSaverText osArgs pkgName imports before ++
        (SetField name m.fieldName m.fieldType ++ PtrFunc name ++
          String.join (rest.map (fun x => SetField name x.fieldName x.fieldType)) ++
          setStr name (m :: rest)) := by
  unfold fileSaverText
  dsimp only
  generalize (fmt.Sprintln ["//"] ++ fmt.Sprintln ["// GENERATED FILE -- DO NOT EDIT"] ++
    fmt.Sprintln ["//"] ++ fmt.Sprintln ["// command:", " ".intercalate osArgs] ++
    fmt.Sprintln ["//"] ++ fmt.Sprintln [] ++
    fmt.Sprintln ["package", pkgName] ++ fmt.Sprintln [] ++
    importBlock imports ++
    fmt.Sprintln [] ++ fmt.Sprintln ["// guarantee imports"] ++
    fmt.Sprintln ["var _ = strconv.Atoi"] ++ fmt.Sprintln ["var _ = errors.New"] ++
    fmt.Sprintln ["var _ = json.Marshal"] ++ fmt.Sprintln []) = banner
  rw [List.foldl_append, List.foldl_cons, List.foldl_nil]
  have hnot : (before.foldl emitType (banner, [])).2.contains name = false := by
    cases hc : (before.foldl emitType (banner, [])).2.contains name with
    | false => rfl
    | true =>
      exfalso
      have hmem : name ∈ (before.foldl emitType (banner, [])).2 := by
        simpa using hc
      rcases foldl_emitType_ptrs before (banner, []) name hmem with h | h
      · simp at h
      · exact hnew h
  have hblock := emitType_block (before.foldl emitType (banner, [])).1
    (before.foldl emitType (banner, [])).2 name m rest hnot
  rw [show ((before.foldl emitType (banner, [])).1, (before.foldl emitType (banner, [])).2) =
    before.foldl emitType (banner, []) from rfl] at hblock
  rw [hblock]

/-- The text of a longer table starts with the text of the shorter one. -/
theorem fileSaverText_extends (osArgs : List String) (pkgName : String) (imports : Imports)
    (first after : MetaTable) :
    ∃ tailText, fileSaverText osArgs pkgName imports (first ++ after) =
      fileSaverText osArgs pkgName imports first ++ tailText := by
  unfold fileSaverText
  dsimp only
  rw [List.foldl_append]
  exact foldl_emitType_extends after _

/-- Where the entry of a claimed alias comes from: the alias is none of the three deleted
    keys, the import table maps it to the path of the entry, the name of the entry is empty
    or the alias, and a field of the metadata table has a type qualified by the alias. -/
theorem claimed_alias_origin (imports : ImportTable) (order : MetaTable)
    (hshape : ∀ entry ∈ order, ∀ m ∈ entry.2, ¬ ("**".data <+: m.fieldType.data))
    (P : String)
    (h1 : (mapGet (mapDelete (mapDelete (mapDelete imports "encoding/json") "errors")
      "strconv") P).isSome = true)
    (h2 : ∃ entry ∈ order, ∃ m ∈ entry.2, claimKey m = some P) :
    ∃ T p : String, P ≠ "encoding/json" ∧ P ≠ "errors" ∧ P ≠ "strconv" ∧
      mapGet imports P = some p ∧
      entryOf (mapDelete (mapDelete (mapDelete imports "encoding/json") "errors") "strconv") P =
        ⟨if P = path.Base (strings.Trim p "\"") then "" else P, p⟩ ∧
      ∃ entry ∈ order, ∃ m ∈ entry.2,
        m.fieldType = P ++ "." ++ T ∨ m.fieldType = "*" ++ P ++ "." ++ T := by
  obtain ⟨p, hp⟩ := Option.isSome_iff_exists.mp h1
  obtain ⟨entry, he, m, hm, hk⟩ := h2
  obtain ⟨T, hT⟩ := shape_of_claimKey m P (hshape entry he m hm) hk
  have hp0 := hp
  rw [mapGet_mapDelete] at hp0
  by_cases c3 : P = "strconv"
  · rw [if_pos c3] at hp0; cases hp0
  rw [if_neg c3, mapGet_mapDelete] at hp0
  by_cases c2 : P = "errors"
  · rw [if_pos c2] at hp0; cases hp0
  rw [if_neg c2, mapGet_mapDelete] at hp0
  by_cases c1 : P = "encoding/json"
  · rw [if_pos c1] at hp0; cases hp0
  rw [if_neg c1] at hp0
  refine ⟨T, p, c1, c2, c3, hp0, ?_, entry, he, m, hm, hT⟩
  simp only [entryOf, hp, Option.getD_some]

/-- An import without a name is recorded under the last segment of its path, quotes
    removed (lines 259-260). -/
theorem walkNode_unnamed_import (fileName : String) (filter : Filter) (pth : String)
    (st : WalkState) :
    walkNode fileName filter (.importSpec none pth) st =
      some { st with imports := mapSet st.imports (path.Base (strings.Trim pth "\"")) pth } := by
  simp only [walkNode]

/-! ## The claims -/

/-- C1 (counterexample): the tag `protobuf:"bytes,1,opt,name=abc,proto3" json:"name=xyz"`
    has the shape of the claim with `X = abc`, followed by one more pair, and `tagName`
    returns `xyz`: the first `.*` of the pattern is greedy and runs over the double quotes, so
    the last `name=` of the tag wins.  The tag `protobuf:"bytes,1,opt,name=user_id,proto3"`
    gives `user`: the group stops in front of an underscore that is not its first
    character. -/
theorem tagName_not_the_protobuf_name :
    tagName "protobuf:\"bytes,1,opt,name=abc,proto3\" json:\"name=xyz\"" = "xyz" ∧
      tagName "protobuf:\"bytes,1,opt,name=user_id,proto3\"" = "user" := by
  decide

/-- C1 (amended): for every name `X` made of a letter or an underscore followed by letters
    and digits, and every raw tag `protobuf:"bytes,1,opt,name=X,proto3"` followed by a text
    that does not contain `name=` (and preceded by a text without the letter `p`, such as the
    opening backquote of the literal, or by nothing), `tagName` returns exactly `X`. -/
theorem tagName_of_plain_name (pre X rest : String) (c : Char) (cs : List Char)
    (hX : X.data = c :: cs)
    (hpre : 'p' ∉ pre.data)
    (hc : identStart c = true) (hcs : ∀ d ∈ cs, identRest d = true)
    (hrest : ¬ ("name=".data <:+: rest.data)) :
    tagName (pre ++ "protobuf:\"bytes,1,opt,name=" ++ X ++ ",proto3\"" ++ rest) = X := by
  obtain ⟨r, hr, hstart, hstop⟩ := re_match_plain c cs rest.data hc hcs hrest
  have hdata : (pre ++ "protobuf:\"bytes,1,opt,name=" ++ X ++ ",proto3\"" ++ rest).data
      = pre.data ++ ("protobuf:\"".data ++ ("bytes,1,opt,".data ++
        ("name=".data ++ (c :: cs ++ (",proto3\"".data ++ rest.data))))) := by
    simp [String.data_append, hX]
  have hfind : findFrom re (pre ++ "protobuf:\"bytes,1,opt,name=" ++ X ++
      ",proto3\"" ++ rest).data = some (("protobuf:\"".data ++ ("bytes,1,opt,".data ++
        ("name=".data ++ (c :: cs ++ (",proto3\"".data ++ rest.data))))), r) := by
    rw [hdata, findFrom_skip]
    · exact findFrom_of_match re 'p' _ r hr
    · intro x hx xs
      exact re_none_of_ne_p x xs (fun h => hpre (h ▸ hx))
  unfold tagName FindStringSubmatch
  rw [hfind]
  simp only [List.length_cons, List.length_nil, List.getD_cons_succ, List.getD_cons_zero]
  rw [hstart, hstop]
  have hb := between_append (c :: cs) (",proto3\"".data ++ rest.data)
  simp only [gt_iff_lt, Nat.lt_add_left_iff_pos, Nat.lt_add_one, if_true]
  apply String.ext
  rw [hX]
  exact hb

/-- C1 (witness): the tag of a field named `count`, as the literal with its backquotes and
    a `json` pair. -/
theorem tagName_of_plain_name_witness :
    tagName "`protobuf:\"bytes,1,opt,name=count,proto3\" json:\"count,omitempty\"`" = "count" :=
  tagName_of_plain_name "`" "count" " json:\"count,omitempty\"`" 'c' "ount".data
    (by decide) (by decide) (by decide) (by decide) (by decide)

/-- C2 (counterexample): in the tag `protobuf:"bytes,1,opt" json:"name=foo"` the text
    between `protobuf:"` and the next double quote is `bytes,1,opt`, it holds no `name=`, and
    `tagName` returns `foo`, not the empty string. -/
theorem tagName_reads_past_closing_quote :
    ("protobuf:\"bytes,1,opt\" json:\"name=foo\"" : String).data =
        [] ++ "protobuf:\"".data ++ "bytes,1,opt".data ++ '"' :: " json:\"name=foo\"".data ∧
      '"' ∉ "bytes,1,opt".data ∧
      ¬ ("name=".data <:+: "bytes,1,opt".data) ∧
      tagName "protobuf:\"bytes,1,opt\" json:\"name=foo\"" = "foo" := by
  decide

/-- C2 (amended): if the tag does not contain `protobuf:"`, or no text between a
    `protobuf:"` and a later double quote of the tag (so up to the last one) contains
    `name=`, then `tagName` returns the empty string. -/
theorem tagName_empty_of_no_name (t : String)
    (h : ¬ ("protobuf:\"".data <:+: t.data) ∨
      ∀ pre mid post, t.data = pre ++ "protobuf:\"".data ++ mid ++ '"' :: post →
        ¬ ("name=".data <:+: mid)) :
    tagName t = "" := by
  apply tagName_eq_empty_of_no_match
  cases hf : findFrom re t.data with
  | none => rfl
  | some x =>
    exfalso
    obtain ⟨s0, r⟩ := x
    obtain ⟨⟨pre, hp⟩, hm⟩ := findFrom_some _ _ _ _ hf
    obtain ⟨a, b, post, hs⟩ := re_match_shape _ _ hm
    rcases h with h | h
    · apply h
      exact ⟨pre, (a ++ "name=".data ++ b) ++ '"' :: post, by rw [hp, hs]; simp⟩
    · apply h pre (a ++ "name=".data ++ b) post (by rw [hp, hs]; simp)
      exact ⟨a, b, rfl⟩

/-- C2 (witness): the tag `protobuf:"bytes,1,opt" json:"foo,omitempty"` has a `protobuf`
    sub-tag and no `name=` anywhere. -/
theorem tagName_empty_of_no_name_witness :
    tagName "protobuf:\"bytes,1,opt\" json:\"foo,omitempty\"" = "" :=
  tagName_empty_of_no_name _ (Or.inr (by
    intro pre mid post h hmid
    have hin : "name=".data <:+: ("protobuf:\"bytes,1,opt\" json:\"foo,omitempty\"" : String).data := by
      rw [h]
      obtain ⟨a, b, hab⟩ := hmid
      exact ⟨pre ++ "protobuf:\"".data ++ a, b ++ '"' :: post, by simp [← hab]⟩
    exact absurd hin (by decide)))

/-- C3: with a filter that rejects every field, the walk of `widget.go` still puts the
    FieldMeta of the field `Count int` in the metadata table: the branch for a simple
    identifier appends without calling the filter. -/
theorem walker_keeps_ident_field_despite_filter :
    inspectFile "widget.go" (fun _ _ _ _ => false) widgetFile =
      some ⟨[], [("Widget", [⟨"Count", "int", "count"⟩])], "Widget"⟩ := by
  decide

/-- C4 (counterexample): with the import `js "encoding/json"` and a field of type
    `js.RawMessage`, two entries of the resolved import list have the path
    `"encoding/json"`: the entry of the claimed alias `js` and the fixed entry. -/
theorem aliased_json_import_resolved_twice :
    (resolveImports [("js", "\"encoding/json\"")]
        [("Event", [⟨"Payload", "js.RawMessage", "payload"⟩])]).2 =
      [⟨"js", "\"encoding/json\""⟩, ⟨"", "\"encoding/json\""⟩, ⟨"", "\"errors\""⟩,
        ⟨"", "\"strconv\""⟩] ∧
      ((resolveImports [("js", "\"encoding/json\"")]
        [("Event", [⟨"Payload", "js.RawMessage", "payload"⟩])]).2.filter
          (fun e => e.Path = "\"encoding/json\"")).length = 2 := by
  decide

/-- C4 (amended): for each of the three fixed paths the resolved import list has at least
    one entry with that path; and it has exactly one when no field of the metadata table
    (whose types are those the walker builds: none starts with two stars) has a type `P.T`
    or `*P.T` for an alias `P`, other than the keys `encoding/json`, `errors` and `strconv`
    that are deleted first, that the import table maps to that path. -/
theorem fixed_import_resolved (imports : ImportTable) (order : MetaTable) (p : String)
    (hp : (⟨"", p⟩ : Import) ∈ fixedImports) :
    1 ≤ ((resolveImports imports order).2.filter (fun e => e.Path = p)).length ∧
      ((∀ entry ∈ order, ∀ m ∈ entry.2, ¬ ("**".data <+: m.fieldType.data)) →
        (∀ P T : String, P ≠ "encoding/json" → P ≠ "errors" → P ≠ "strconv" →
          mapGet imports P = some p → ∀ entry ∈ order, ∀ m ∈ entry.2,
            m.fieldType ≠ P ++ "." ++ T ∧ m.fieldType ≠ "*" ++ P ++ "." ++ T) →
        ((resolveImports imports order).2.filter (fun e => e.Path = p)).length = 1) := by
  obtain ⟨ks, -, hperm, hmem⟩ := resolve_claimed imports order
  have hlen : ((resolveImports imports order).2.filter (fun e => e.Path = p)).length =
      ((ks.map (entryOf (mapDelete (mapDelete (mapDelete imports "encoding/json") "errors")
        "strconv"))).filter (fun e => e.Path = p)).length +
      (fixedImports.filter (fun e => e.Path = p)).length := by
    rw [(hperm.filter _).length_eq, List.filter_append, List.length_append]
  have hfixed : (fixedImports.filter (fun e => e.Path = p)).length = 1 := by
    simp only [fixedImports, List.mem_cons, Import.mk.injEq, true_and, List.mem_singleton,
      List.not_mem_nil, or_false] at hp
    rcases hp with rfl | rfl | rfl <;> decide
  rw [hlen, hfixed]
  refine ⟨by omega, ?_⟩
  intro hshape hno
  have hzero : (ks.map (entryOf (mapDelete (mapDelete (mapDelete imports "encoding/json")
      "errors") "strconv"))).filter (fun e => e.Path = p) = [] := by
    rw [List.filter_eq_nil_iff]
    intro e he
    obtain ⟨P, hP, rfl⟩ := List.mem_map.mp he
    obtain ⟨h1, h2⟩ := (hmem P).mp hP
    obtain ⟨T, q, c1, c2, c3, hget, hentry, entry, hin, m, hm, hty⟩ :=
      claimed_alias_origin imports order hshape P h1 h2
    simp only [decide_eq_true_eq]
    intro hpe
    rw [hentry] at hpe
    have hq : q = p := hpe
    subst hq
    have := hno P T c1 c2 c3 hget entry hin m hm
    rcases hty with h | h
    · exact this.1 h
    · exact this.2 h
  rw [hzero]
  rfl

/-- C4 (witness): the alias `json` of `"encoding/json"` is in the table and the only field
    is an `int`: one entry has the path `"encoding/json"`. -/
theorem fixed_import_resolved_witness :
    1 ≤ ((resolveImports [("json", "\"encoding/json\"")]
        [("Widget", [⟨"Count", "int", "count"⟩])]).2.filter
          (fun e => e.Path = "\"encoding/json\"")).length ∧
      ((resolveImports [("json", "\"encoding/json\"")]
        [("Widget", [⟨"Count", "int", "count"⟩])]).2.filter
          (fun e => e.Path = "\"encoding/json\"")).length = 1 :=
  ⟨(fixed_import_resolved [("json", "\"encoding/json\"")]
      [("Widget", [⟨"Count", "int", "count"⟩])] "\"encoding/json\"" (by decide)).1,
    (fixed_import_resolved [("json", "\"encoding/json\"")]
      [("Widget", [⟨"Count", "int", "count"⟩])] "\"encoding/json\"" (by decide)).2
      (by decide)
      (by
        intro P T _ _ _ _ entry he m hm
        simp only [List.mem_singleton] at he
        subst he
        simp only [List.mem_singleton] at hm
        subst hm
        constructor
        · intro h
          have h1 : '.' ∈ ("int" : String).data := by
            have : ("int" : String) = P ++ "." ++ T := h
            rw [this]
            simp [String.data_append]
          exact absurd h1 (by decide)
        · intro h
          have h1 : '.' ∈ ("int" : String).data := by
            have : ("int" : String) = "*" ++ P ++ "." ++ T := h
            rw [this]
            simp [String.data_append]
          exact absurd h1 (by decide))⟩

/-- C5 (counterexample): for `report.go`, which imports `github.com/pkg/errors` without an
    alias and has a field of type `*errors.Frame`, the import table maps `errors` to that
    path, and the resolved import list is the three fixed entries: no entry has the path. -/
theorem errors_alias_not_resolved :
    inspectFile "report.go" nullFilter reportFile =
        some ⟨[("errors", "\"github.com/pkg/errors\"")],
          [("Report", [⟨"Frame", "*errors.Frame", "frame"⟩])], "Report"⟩ ∧
      mapGet [("errors", "\"github.com/pkg/errors\"")] "errors" =
        some "\"github.com/pkg/errors\"" ∧
      (resolveImports [("errors", "\"github.com/pkg/errors\"")]
          [("Report", [⟨"Frame", "*errors.Frame", "frame"⟩])]).2 = fixedImports ∧
      (∀ e ∈ fixedImports, e.Path ≠ "\"github.com/pkg/errors\"") := by
  decide

/-- C5 (amended): for every FieldMeta of the metadata table whose type is `P.T` or `*P.T`,
    where `P` (a name without dot, star or slash) is an alias the import table maps to a
    path, and where that path is `"errors"` when `P` is `errors` and `"strconv"` when `P`
    is `strconv`, the resolved import list has an entry with that path. -/
theorem claimed_alias_is_resolved (imports : ImportTable) (order : MetaTable) (P T pth : String)
    (hP : ∀ c ∈ P.data, c ≠ '.' ∧ c ≠ '*' ∧ c ≠ '/') (hT : '.' ∉ T.data)
    (hget : mapGet imports P = some pth)
    (herrors : P = "errors" → pth = "\"errors\"")
    (hstrconv : P = "strconv" → pth = "\"strconv\"")
    (entry : String × List Meta) (hentry : entry ∈ order) (m : Meta) (hm : m ∈ entry.2)
    (hty : m.fieldType = P ++ "." ++ T ∨ m.fieldType = "*" ++ P ++ "." ++ T) :
    ∃ e ∈ (resolveImports imports order).2, e.Path = pth := by
  have hdot : '.' ∉ P.data := fun h => (hP _ h).1 rfl
  have hstar : '*' ∉ P.data := fun h => (hP _ h).2.1 rfl
  have hjson : P ≠ "encoding/json" := by
    intro h
    have : '/' ∈ P.data := by rw [h]; decide
    exact (hP _ this).2.2 rfl
  unfold resolveImports
  simp only
  by_cases he : P = "errors"
  · refine ⟨⟨"", "\"errors\""⟩, ?_, (herrors he).symm⟩
    apply (sortSort_perm _).mem_iff.mpr
    apply List.mem_append_right
    simp [fixedImports]
  by_cases hs : P = "strconv"
  · refine ⟨⟨"", "\"strconv\""⟩, ?_, (hstrconv hs).symm⟩
    apply (sortSort_perm _).mem_iff.mpr
    apply List.mem_append_right
    simp [fixedImports]
  have hget1 : mapGet (mapDelete (mapDelete (mapDelete imports "encoding/json") "errors") "strconv") P
      = some pth := by
    rw [mapGet_mapDelete, if_neg hs, mapGet_mapDelete, if_neg he, mapGet_mapDelete, if_neg hjson]
    exact hget
  obtain ⟨l1, l2, hsplit⟩ := List.append_of_mem ((mem_fields_iff order m).mpr ⟨entry, hentry, hm⟩)
  rw [claimAll_eq, hsplit, List.foldl_append, List.foldl_cons]
  -- before the field: the alias is still in the table, or it has been claimed already
  have h1 := foldl_claimImport_inv
    (fun st => mapGet st.imports P = some pth ∨ ∃ e ∈ st.imported, e.Path = pth) l1
    (by
      intro s _ st hinv
      rcases claimImport_cases st s with h | ⟨pth1, -, hg, h⟩
      · rw [h]; exact hinv
      · rw [h]
        rcases hinv with hinv | ⟨e, he1, hpe⟩
        · by_cases hk : P = strings.TrimLeft ((strings.Split s.fieldType '.').getD 0 "") "*"
          · right
            rw [← hk, hinv] at hg
            refine ⟨_, List.mem_append_right _ (List.mem_singleton_self _), ?_⟩
            exact (Option.some.inj hg).symm
          · left
            show mapGet (mapDelete st.imports _) P = some pth
            rw [mapGet_mapDelete, if_neg hk]
            exact hinv
        · right
          exact ⟨e, List.mem_append_left _ he1, hpe⟩)
    ⟨mapDelete (mapDelete (mapDelete imports "encoding/json") "errors") "strconv", "blah", []⟩
    (Or.inl hget1)
  -- at the field: claimed now
  have h2 : ∃ e ∈ (claimImport (List.foldl claimImport
      ⟨mapDelete (mapDelete (mapDelete imports "encoding/json") "errors") "strconv", "blah", []⟩
      l1) m).imported, e.Path = pth := by
    rcases h1 with h1 | ⟨e, he1, hpe⟩
    · rw [claimImport_qualified _ m P T hdot hstar hT hty, h1]
      exact ⟨_, List.mem_append_right _ (List.mem_singleton_self _), rfl⟩
    · exact ⟨e, claimImport_imported_mono _ _ _ he1, hpe⟩
  -- after the field: entries stay
  have h3 := foldl_claimImport_inv (fun st => ∃ e ∈ st.imported, e.Path = pth) l2
    (by
      intro s _ st ⟨e, he1, hpe⟩
      exact ⟨e, claimImport_imported_mono _ _ _ he1, hpe⟩) _ h2
  obtain ⟨e, he1, hpe⟩ := h3
  exact ⟨e, (sortSort_perm _).mem_iff.mpr (List.mem_append_left _ he1), hpe⟩

/-- C5 (witness): the field `Inner *otherpkg.Inner` with the import of
    `example.com/otherpkg`. -/
theorem claimed_alias_is_resolved_witness :
    ∃ e ∈ (resolveImports [("otherpkg", "\"example.com/otherpkg\"")]
        [("Outer", [⟨"Inner", "*otherpkg.Inner", "inner"⟩])]).2,
      e.Path = "\"example.com/otherpkg\"" :=
  claimed_alias_is_resolved [("otherpkg", "\"example.com/otherpkg\"")]
    [("Outer", [⟨"Inner", "*otherpkg.Inner", "inner"⟩])] "otherpkg" "Inner"
    "\"example.com/otherpkg\"" (by decide) (by decide) (by decide) (by decide) (by decide)
    ("Outer", [⟨"Inner", "*otherpkg.Inner", "inner"⟩]) (by decide)
    ⟨"Inner", "*otherpkg.Inner", "inner"⟩ (by decide) (by decide)

/-- C6: every entry of the resolved import list is one of the three fixed entries, or it
    is the entry of an alias `P` that a FieldMeta of the metadata table names in its type
    `P.T` or `*P.T`: its path is the path the import table maps `P` to, and its name is
    `P`, or empty when `P` is the last segment of that path; so no entry is that of an
    alias that no field names.  The field types are those the walker builds: none starts
    with two stars. -/
theorem resolved_entries_are_claimed (imports : ImportTable) (order : MetaTable)
    (hshape : ∀ entry ∈ order, ∀ m ∈ entry.2, ¬ ("**".data <+: m.fieldType.data))
    (e : Import) (he : e ∈ (resolveImports imports order).2) :
    e ∈ fixedImports ∨
      ∃ P T : String, mapGet imports P = some e.Path ∧
        e.Name = (if P = path.Base (strings.Trim e.Path "\"") then "" else P) ∧
        ∃ entry ∈ order, ∃ m ∈ entry.2,
          m.fieldType = P ++ "." ++ T ∨ m.fieldType = "*" ++ P ++ "." ++ T := by
  obtain ⟨ks, -, hperm, hmem⟩ := resolve_claimed imports order
  rcases List.mem_append.mp (hperm.mem_iff.mp he) with h | h
  · right
    obtain ⟨P, hP, rfl⟩ := List.mem_map.mp h
    obtain ⟨h1, h2⟩ := (hmem P).mp hP
    obtain ⟨T, q, -, -, -, hget, hentry, entry, hin, m, hm, hty⟩ :=
      claimed_alias_origin imports order hshape P h1 h2
    rw [hentry]
    exact ⟨P, T, hget, rfl, entry, hin, m, hm, hty⟩
  · left; exact h

/-- C6 (witness): the import of `example.com/otherpkg` with a field of type
    `*otherpkg.Inner`; the entry of that import is in the resolved list. -/
theorem resolved_entries_are_claimed_witness :
    (⟨"", "\"example.com/otherpkg\""⟩ : Import) ∈ fixedImports ∨
      ∃ P T : String,
        mapGet [("otherpkg", "\"example.com/otherpkg\""), ("unused", "\"example.com/unused\"")] P =
          some (⟨"", "\"example.com/otherpkg\""⟩ : Import).Path ∧
        (⟨"", "\"example.com/otherpkg\""⟩ : Import).Name =
          (if P = path.Base (strings.Trim
            (⟨"", "\"example.com/otherpkg\""⟩ : Import).Path "\"") then "" else P) ∧
        ∃ entry ∈ [("Outer", [(⟨"Inner", "*otherpkg.Inner", "inner"⟩ : Meta)])], ∃ m ∈ entry.2,
          m.fieldType = P ++ "." ++ T ∨ m.fieldType = "*" ++ P ++ "." ++ T :=
  resolved_entries_are_claimed
    [("otherpkg", "\"example.com/otherpkg\""), ("unused", "\"example.com/unused\"")]
    [("Outer", [⟨"Inner", "*otherpkg.Inner", "inner"⟩])] (by decide)
    ⟨"", "\"example.com/otherpkg\""⟩ (by decide)

/-- C7: the resolved import list is sorted ascending by path: of two adjacent entries the
    earlier has a path less than or equal to the path of the later. -/
theorem resolveImports_sorted (imports : ImportTable) (order : MetaTable) :
    List.Chain' (fun a b => a.Path ≤ b.Path) (resolveImports imports order).2 := by
  unfold resolveImports
  exact sortSort_chain _

/-- C8: for the input name `foo.go` the output name of `fileSaver` is `f_setters.go`, not
    `foo_setters.go`: `strings.TrimRight` takes `.go` as a set of characters and removes
    every trailing `.`, `g` and `o`. -/
theorem fileSaver_name_of_foo :
    fileSaverNewName "foo.go" = "f_setters.go" := by
  decide

/-- C9: for `widget.go`, of package `widgets`, `ParseFile` passes the package name `blah`
    to the saver; for `event.go`, of package `events`, it passes `json`, the alias under
    which the type of its field is imported. -/
theorem ParseFile_passes_other_package_name (saver : Saver) :
    widgetFile.Name = "widgets" ∧
      ParseFile "widget.go" widgetFile none saver id =
        .returned [⟨"widget.go", "blah", fixedImports, [("Widget", [⟨"Count", "int", "count"⟩])]⟩]
          (saver "widget.go" "blah" fixedImports [("Widget", [⟨"Count", "int", "count"⟩])]) ∧
      eventFile.Name = "events" ∧
      ParseFile "event.go" eventFile none saver id =
        .returned
          [⟨"event.go", "json",
            [⟨"", "\"encoding/json\""⟩, ⟨"", "\"encoding/json\""⟩, ⟨"", "\"errors\""⟩,
              ⟨"", "\"strconv\""⟩],
            [("Event", [⟨"Payload", "json.RawMessage", "payload"⟩])]⟩]
          (saver "event.go" "json"
            [⟨"", "\"encoding/json\""⟩, ⟨"", "\"encoding/json\""⟩, ⟨"", "\"errors\""⟩,
              ⟨"", "\"strconv\""⟩]
            [("Event", [⟨"Payload", "json.RawMessage", "payload"⟩])]) :=
  ⟨rfl, rfl, rfl, rfl⟩

/-- C10: for `plain.go`, a file in which no field yields a FieldMeta (its only field has no
    tag), `ParseFile` does not return nil: it panics on `f.Tag.Value`, whatever the saver. -/
theorem ParseFile_panics_on_untagged_field (saver : Saver) (rangeOrder : MetaTable → MetaTable) :
    ParseFile "plain.go" plainFile none saver rangeOrder = .panicked :=
  rfl

/-- C11 (amended): for a field of declared type `int` the case body is the one statement
    `s.<field>, err = strconv.Atoi(value)`; run with a value that `strconv.Atoi` rejects, it
    leaves the error of `strconv.Atoi` in `err` (so `SetString` returns a non-nil error) and
    stores in the field the number that comes with the error, whatever the field held: 0
    for a syntax error, the nearest bound of `int` for a range error. -/
theorem int_case_stores_result_on_error (m : Meta) (value : String) (vars : GoVars) (e : NumError)
    (hty : m.fieldType = "int") (herr : (strconv.Atoi value).2 = some e) :
    ∃ n, runIntCase (setStrBody m) m.fieldName value vars = some ⟨n, some e⟩ ∧
      (e = .ErrSyntax → n = 0) ∧ (e = .ErrRange → n = 2 ^ 63 - 1 ∨ n = -(2 ^ 63)) := by
  refine ⟨(strconv.Atoi value).1, ?_, Atoi_error value e herr⟩
  unfold runIntCase
  rw [setStrBody_int m hty, if_pos rfl, herr]

/-- C11 (witness): the field `Count` holding 7 and the value `abc`. -/
theorem int_case_stores_result_on_error_witness :
    ∃ n, runIntCase (setStrBody ⟨"Count", "int", "count"⟩) "Count" "abc" ⟨7, none⟩ =
        some ⟨n, some .ErrSyntax⟩ ∧
      (NumError.ErrSyntax = .ErrSyntax → n = 0) ∧
      (NumError.ErrSyntax = .ErrRange → n = 2 ^ 63 - 1 ∨ n = -(2 ^ 63)) :=
  int_case_stores_result_on_error ⟨"Count", "int", "count"⟩ "abc" ⟨7, none⟩ .ErrSyntax rfl
    (by decide)

/-- C11 (counterexample): the field `Count` of type `int` holds 7; the case body written
    for it is `s.Count, err = strconv.Atoi(value)`, `strconv.Atoi` of `abc` is 0 with a
    syntax error, and after the statement the field holds 0, not 7. -/
theorem int_case_resets_field_on_bad_value :
    setStrBody ⟨"Count", "int", "count"⟩ = "\t\ts.Count, err = strconv.Atoi(value)\n" ∧
      strconv.Atoi "abc" = (0, some .ErrSyntax) ∧
      runIntCase (setStrBody ⟨"Count", "int", "count"⟩) "Count" "abc" ⟨7, none⟩ =
        some ⟨0, some .ErrSyntax⟩ := by
  decide

/-- C12: the text `setStr` writes for a type name and a list of FieldMeta is the head of
    `SetString` for that type, then for every FieldMeta of the list, in the order of the
    list, one clause `case "<tagName>":` with its comment and its body, then the default
    clause `err = errors.New("field does not exist:" + name)` and `return err`; nothing
    else. -/
theorem setStr_text (name : String) (meta : List Meta) :
    setStr name meta =
      "\n// SetString sets the named element using the given string\nfunc (s *" ++ name ++
        ") SetString(name, value string) error \x7b\n\tvar err error\n\tswitch name \x7b\n" ++
      String.join (meta.map (fun m =>
        "\tcase \"" ++ m.tagName ++ "\":  // (" ++ m.fieldType ++ ")\n" ++ setStrBody m)) ++
      "\tdefault:\n\t\terr = errors.New(\"field does not exist:\" + name)\n\t\x7d\n\treturn err\n\x7d\n" := by
  unfold setStr
  have h := foldl_emit (fun m => setStrLabel m ++ setStrBody m) (fmt.Sprintf setStrHead [name]) meta
  simp only [← String.append_assoc] at h
  rw [h, setStrHead_eq, setStrTail_eq]
  simp only [setStrLabel_eq]
  rfl

/-- C13: in a metadata table with pairwise different type names (the keys of a map), what
    `fileSaver` writes while it handles a type with the fields `m :: rest`, after the
    types before it, is: the setter `Set<Field>` of `m`, the one `Ptr()` helper of the type,
    the setters of `rest` in their order, and the one `SetString` function with a clause
    for each field; the text of the later types comes after it. -/
theorem fileSaver_type_block (osArgs : List String) (pkgName : String) (imports : Imports)
    (before after : MetaTable) (name : String) (m : Meta) (rest : List Meta)
    (hkeys : ((before ++ (name, m :: rest) :: after).map Prod.fst).Nodup) :
    fileSaverText osArgs pkgName imports (before ++ [(name, m :: rest)]) =
        fileSaverText osArgs pkgName imports before ++
          ("\n// Set" ++ m.fieldName ++ " sets " ++ m.fieldName ++ "\nfunc (s *" ++ name ++
            ") Set" ++ m.fieldName ++ "(v " ++ m.fieldType ++ ") \x7b\n\ts." ++ m.fieldName ++
            " = v\n\x7d\n") ++
          ("\n// Ptr returns a pointer to a copy of " ++ name ++ "\nfunc (s " ++ name ++
            ") Ptr() interface\x7b\x7d \x7b\n\treturn &s\n\x7d\n") ++
          String.join (rest.map (fun x =>
            "\n// Set" ++ x.fieldName ++ " sets " ++ x.fieldName ++ "\nfunc (s *" ++ name ++
              ") Set" ++ x.fieldName ++ "(v " ++ x.fieldType ++ ") \x7b\n\ts." ++ x.fieldName ++
              " = v\n\x7d\n")) ++
          ("\n// SetString sets the named element using the given string\nfunc (s *" ++ name ++
            ") SetString(name, value string) error \x7b\n\tvar err error\n\tswitch name \x7b\n" ++
          String.join ((m :: rest).map (fun x =>
            "\tcase \"" ++ x.tagName ++ "\":  // (" ++ x.fieldType ++ ")\n" ++ setStrBody x)) ++
          "\tdefault:\n\t\terr = errors.New(\"field does not exist:\" + name)\n\t\x7d\n\treturn err\n\x7d\n") ∧
      ∃ tailText,
        fileSaverText osArgs pkgName imports (before ++ (name, m :: rest) :: after) =
          fileSaverText osArgs pkgName imports (before ++ [(name, m :: rest)]) ++ tailText := by
  have hnew : name ∉ before.map Prod.fst := by
    rw [List.map_append, List.map_cons, List.nodup_append] at hkeys
    exact fun h => hkeys.2.2 h (List.mem_cons_self _ _)
  constructor
  · rw [fileSaverText_snoc osArgs pkgName imports before name m rest hnew, setStr_eq]
    simp only [SetField_eq, PtrFunc_eq, String.append_assoc]
  · have h := fileSaverText_extends osArgs pkgName imports (before ++ [(name, m :: rest)]) after
    rw [List.append_assoc, List.singleton_append] at h
    exact h

/-- C13 (witness): a table of two types, the second with two fields. -/
theorem fileSaver_type_block_witness :
    fileSaverText ["setstr", "a.go"] "blah" fixedImports
          ([("A", [⟨"X", "int", "x"⟩])] ++ [("B", (⟨"Y", "string", "y"⟩ : Meta) ::
            [⟨"Z", "int64", "z"⟩])]) =
        fileSaverText ["setstr", "a.go"] "blah" fixedImports [("A", [⟨"X", "int", "x"⟩])] ++
          ("\n// Set" ++ "Y" ++ " sets " ++ "Y" ++ "\nfunc (s *" ++ "B" ++
            ") Set" ++ "Y" ++ "(v " ++ "string" ++ ") \x7b\n\ts." ++ "Y" ++
            " = v\n\x7d\n") ++
          ("\n// Ptr returns a pointer to a copy of " ++ "B" ++ "\nfunc (s " ++ "B" ++
            ") Ptr() interface\x7b\x7d \x7b\n\treturn &s\n\x7d\n") ++
          String.join ([(⟨"Z", "int64", "z"⟩ : Meta)].map (fun x =>
            "\n// Set" ++ x.fieldName ++ " sets " ++ x.fieldName ++ "\nfunc (s *" ++ "B" ++
              ") Set" ++ x.fieldName ++ "(v " ++ x.fieldType ++ ") \x7b\n\ts." ++ x.fieldName ++
              " = v\n\x7d\n")) ++
          ("\n// SetString sets the named element using the given string\nfunc (s *" ++ "B" ++
            ") SetString(name, value string) error \x7b\n\tvar err error\n\tswitch name \x7b\n" ++
          String.join (((⟨"Y", "string", "y"⟩ : Meta) :: [⟨"Z", "int64", "z"⟩]).map (fun x =>
            "\tcase \"" ++ x.tagName ++ "\":  // (" ++ x.fieldType ++ ")\n" ++ setStrBody x)) ++
          "\tdefault:\n\t\terr = errors.New(\"field does not exist:\" + name)\n\t\x7d\n\treturn err\n\x7d\n") ∧
      ∃ tailText,
        fileSaverText ["setstr", "a.go"] "blah" fixedImports
            ([("A", [⟨"X", "int", "x"⟩])] ++
              ("B", (⟨"Y", "string", "y"⟩ : Meta) :: [⟨"Z", "int64", "z"⟩]) ::
              [("C", [⟨"W", "uint", "w"⟩])]) =
          fileSaverText ["setstr", "a.go"] "blah" fixedImports
            ([("A", [⟨"X", "int", "x"⟩])] ++ [("B", (⟨"Y", "string", "y"⟩ : Meta) ::
              [⟨"Z", "int64", "z"⟩])]) ++ tailText :=
  fileSaver_type_block ["setstr", "a.go"] "blah" fixedImports [("A", [⟨"X", "int", "x"⟩])]
    [("C", [⟨"W", "uint", "w"⟩])] "B" ⟨"Y", "string", "y"⟩ [⟨"Z", "int64", "z"⟩] (by decide)

/-- C14: for a field of declared type `int32` the case body is `var v int32` (no newline
    after it), `tv, err = strconv.Atoi(value)`, `s.<field> = int32(v)`: the parse result
    goes to `tv`, a variable that is declared nowhere, and the variable narrowed and
    assigned to the field is `v`, which no statement sets. -/
theorem setStrBody_int32 (m : Meta) (h : m.fieldType = "int32") :
    setStrBody m = "\t\tvar v int32" ++ "\t\ttv, err = strconv.Atoi(value)\n" ++
      "\t\ts." ++ m.fieldName ++ " = int32(v)\n" := by
  unfold setStrBody
  have hp : strings.HasPrefix "int32" "*" = false := by decide
  simp only [h, hp]
  apply String.ext
  simp [line, fmt.Sprintf, sprintfChars]

/-- C14 (witness): the field `Size` of type `int32`. -/
theorem setStrBody_int32_witness :
    setStrBody ⟨"Size", "int32", "size"⟩ =
      "\t\tvar v int32" ++ "\t\ttv, err = strconv.Atoi(value)\n" ++
        "\t\ts." ++ "Size" ++ " = int32(v)\n" :=
  setStrBody_int32 ⟨"Size", "int32", "size"⟩ rfl

/-- C15: for a field whose declared type is none of int, int32, int64, uint, uint32,
    uint64, float32, float64, string, the case body is the one statement
    `err = json.Unmarshal([]byte(value), TARGET)` where TARGET is `s.<field>` when the type
    starts with `*` and `&s.<field>` otherwise. -/
theorem setStrBody_other (m : Meta)
    (h : m.fieldType ∉ ["int", "int32", "int64", "uint", "uint32", "uint64", "float32",
      "float64", "string"]) :
    setStrBody m = "\t\terr = json.Unmarshal([]byte(value), " ++
      (if strings.HasPrefix m.fieldType "*" then "" else "&") ++ "s." ++ m.fieldName ++ ")\n" := by
  simp only [List.mem_cons, List.mem_singleton, List.not_mem_nil, not_or, or_false] at h
  obtain ⟨h1, h2, h3, h4, h5, h6, h7, h8, h9⟩ := h
  unfold setStrBody
  simp only [h1, h2, h3, h4, h5, h6, h7, h8, h9, if_false]
  apply String.ext
  simp [line, fmt.Sprintf, sprintfChars]

/-- C15 (witness): the field `Inner` of type `*otherpkg.Inner`, decoded through the
    pointer. -/
theorem setStrBody_other_witness :
    setStrBody ⟨"Inner", "*otherpkg.Inner", "inner"⟩ =
      "\t\terr = json.Unmarshal([]byte(value), " ++
        (if strings.HasPrefix "*otherpkg.Inner" "*" then "" else "&") ++ "s." ++ "Inner" ++
        ")\n" :=
  setStrBody_other ⟨"Inner", "*otherpkg.Inner", "inner"⟩ (by decide)

/-- C16: on a struct type whose field list has a field with no tag, the walker does not
    skip that field: the closure panics on `f.Tag.Value` (the result `none`), whatever the
    other fields are, so no field of the struct is recorded. -/
theorem walkNode_panics_on_untagged_field (fileName : String) (filter : Filter)
    (fields : List Field) (st : WalkState) (f : Field) (hf : f ∈ fields)
    (htag : f.Tag = none) :
    walkNode fileName filter (.structType fields) st = none := by
  simp only [walkNode]
  exact visitFields_untagged fileName filter fields st f hf htag

/-- C16 (witness): the struct `A int` without a tag, then `B int` with the tag
    `protobuf:"varint,2,opt,name=b"`. -/
theorem walkNode_panics_on_untagged_field_witness :
    walkNode "mixed.go" nullFilter
      (.structType [⟨["A"], .ident "int", none⟩,
        ⟨["B"], .ident "int", some "`protobuf:\"varint,2,opt,name=b\"`"⟩]) ⟨[], [], "Mixed"⟩ =
      none :=
  walkNode_panics_on_untagged_field "mixed.go" nullFilter
    [⟨["A"], .ident "int", none⟩,
      ⟨["B"], .ident "int", some "`protobuf:\"varint,2,opt,name=b\"`"⟩] ⟨[], [], "Mixed"⟩
    ⟨["A"], .ident "int", none⟩ (by simp) rfl

/-- C17: the resolved import list has 3 + k entries, where k is the number of the aliases
    `P` that the import table maps to a path after the removal of the keys
    `encoding/json`, `errors` and `strconv`, and for which some FieldMeta of the metadata
    table has the type `P.T` or `*P.T`; each such alias counts once.  The field types are
    those the walker builds (at most one dot, no two stars in front), and no key of
    the import table starts with a star. -/
theorem resolved_length (imports : ImportTable) (order : MetaTable)
    (hcount : ∀ entry ∈ order, ∀ m ∈ entry.2, m.fieldType.data.count '.' ≤ 1)
    (hshape : ∀ entry ∈ order, ∀ m ∈ entry.2, ¬ ("**".data <+: m.fieldType.data))
    (hkeys : ∀ kv ∈ imports, ¬ ("*".data <+: kv.1.data)) :
    ∃ aliases : List String, aliases.Nodup ∧
      (∀ P, P ∈ aliases ↔
        (∃ p, mapGet (mapDelete (mapDelete (mapDelete imports "encoding/json") "errors")
          "strconv") P = some p) ∧
        ∃ entry ∈ order, ∃ m ∈ entry.2, ∃ T : String,
          m.fieldType = P ++ "." ++ T ∨ m.fieldType = "*" ++ P ++ "." ++ T) ∧
      (resolveImports imports order).2.length = 3 + aliases.length := by
  obtain ⟨ks, hnd, hperm, hmem⟩ := resolve_claimed imports order
  refine ⟨ks, hnd, fun P => ?_, ?_⟩
  · rw [hmem P]
    constructor
    · rintro ⟨h1, entry, he, m, hm, hk⟩
      obtain ⟨p, hp⟩ := Option.isSome_iff_exists.mp h1
      refine ⟨⟨p, hp⟩, entry, he, m, hm, ?_⟩
      exact shape_of_claimKey m P (hshape entry he m hm) hk
    · rintro ⟨⟨p, hp⟩, entry, he, m, hm, hT⟩
      refine ⟨by rw [hp]; rfl, entry, he, m, hm, ?_⟩
      have hp0 : mapGet imports P = some p :=
        mapGet_of_mapDelete _ _ _ _ (mapGet_of_mapDelete _ _ _ _ (mapGet_of_mapDelete _ _ _ _ hp))
      have hstar := hkeys (P, p) (mapGet_mem _ _ _ hp0)
      exact (claimKey_iff_shape m P (hcount entry he m hm) (hshape entry he m hm) hstar).mpr hT
  · rw [hperm.length_eq]
    simp [fixedImports]
    omega

/-- C17 (witness): two types with three fields of the alias `otherpkg`, and an import that
    no field uses: four entries. -/
theorem resolved_length_witness :
    ∃ aliases : List String, aliases.Nodup ∧
      (∀ P, P ∈ aliases ↔
        (∃ p, mapGet (mapDelete (mapDelete (mapDelete
          [("otherpkg", "\"example.com/otherpkg\""), ("unused", "\"example.com/unused\"")]
          "encoding/json") "errors") "strconv") P = some p) ∧
        ∃ entry ∈ [("Outer", [(⟨"Inner", "*otherpkg.Inner", "inner"⟩ : Meta),
            ⟨"Other", "otherpkg.Other", "other"⟩]),
            ("Second", [⟨"Inner", "otherpkg.Inner", "inner"⟩, ⟨"Count", "int", "count"⟩])],
          ∃ m ∈ entry.2, ∃ T : String,
            m.fieldType = P ++ "." ++ T ∨ m.fieldType = "*" ++ P ++ "." ++ T) ∧
      (resolveImports
        [("otherpkg", "\"example.com/otherpkg\""), ("unused", "\"example.com/unused\"")]
        [("Outer", [⟨"Inner", "*otherpkg.Inner", "inner"⟩,
            ⟨"Other", "otherpkg.Other", "other"⟩]),
          ("Second", [⟨"Inner", "otherpkg.Inner", "inner"⟩, ⟨"Count", "int", "count"⟩])]).2.length =
        3 + aliases.length :=
  resolved_length
    [("otherpkg", "\"example.com/otherpkg\""), ("unused", "\"example.com/unused\"")]
    [("Outer", [⟨"Inner", "*otherpkg.Inner", "inner"⟩, ⟨"Other", "otherpkg.Other", "other"⟩]),
      ("Second", [⟨"Inner", "otherpkg.Inner", "inner"⟩, ⟨"Count", "int", "count"⟩])]
    (by decide) (by decide) (by decide)

/-- C18 (amended): for the same import table, two orders of iteration over the same
    metadata table give resolved import lists with the same entries (one is a permutation
    of the other), and the two lists are equal when the paths of the entries are pairwise
    different. -/
theorem resolveImports_order_independent (imports : ImportTable) (order1 order2 : MetaTable)
    (h : order1.Perm order2) :
    (resolveImports imports order1).2.Perm (resolveImports imports order2).2 ∧
      (((resolveImports imports order1).2.map Import.Path).Nodup →
        (resolveImports imports order1).2 = (resolveImports imports order2).2) := by
  have hperm := resolveImports_perm imports order1 order2 h
  refine ⟨hperm, fun hnd => ?_⟩
  have hnd2 : ((resolveImports imports order2).2.map Import.Path).Nodup :=
    ((hperm.map Import.Path).nodup_iff).mp hnd
  have h1 := strictly_sorted _ (sortSort_chain _ : List.Chain' _ (resolveImports imports order1).2) hnd
  have h2 := strictly_sorted _ (sortSort_chain _ : List.Chain' _ (resolveImports imports order2).2) hnd2
  haveI : IsAntisymm Import (fun a b => a.Path < b.Path) :=
    ⟨fun a b hab hba => absurd hab (lt_asymm hba)⟩
  exact List.eq_of_perm_of_sorted hperm h1 h2

/-- C18 (witness): two types that claim imports of different paths, in the two orders. -/
theorem resolveImports_order_independent_witness :
    (resolveImports [("a", "\"x/a\""), ("b", "\"x/b\"")]
        [("A", [⟨"X", "a.T", "x"⟩]), ("B", [⟨"Y", "b.T", "y"⟩])]).2.Perm
        (resolveImports [("a", "\"x/a\""), ("b", "\"x/b\"")]
          [("B", [⟨"Y", "b.T", "y"⟩]), ("A", [⟨"X", "a.T", "x"⟩])]).2 ∧
      (((resolveImports [("a", "\"x/a\""), ("b", "\"x/b\"")]
          [("A", [⟨"X", "a.T", "x"⟩]), ("B", [⟨"Y", "b.T", "y"⟩])]).2.map Import.Path).Nodup →
        (resolveImports [("a", "\"x/a\""), ("b", "\"x/b\"")]
          [("A", [⟨"X", "a.T", "x"⟩]), ("B", [⟨"Y", "b.T", "y"⟩])]).2 =
          (resolveImports [("a", "\"x/a\""), ("b", "\"x/b\"")]
            [("B", [⟨"Y", "b.T", "y"⟩]), ("A", [⟨"X", "a.T", "x"⟩])]).2) :=
  resolveImports_order_independent [("a", "\"x/a\""), ("b", "\"x/b\"")]
    [("A", [⟨"X", "a.T", "x"⟩]), ("B", [⟨"Y", "b.T", "y"⟩])]
    [("B", [⟨"Y", "b.T", "y"⟩]), ("A", [⟨"X", "a.T", "x"⟩])] (List.Perm.swap _ _ _)

/-- C18 (counterexample): the aliases `a` and `b` of the one path `x/y`, claimed by the
    types `A` and `B`.  Iterated as `A`, `B` the list ends with the entry of `a`, then that
    of `b`; iterated as `B`, `A` it ends with the entry of `b`, then that of `a`. -/
theorem resolveImports_depends_on_range_order :
    List.Perm [("A", [(⟨"X", "a.T", "x"⟩ : Meta)]), ("B", [⟨"Y", "b.T", "y"⟩])]
        [("B", [⟨"Y", "b.T", "y"⟩]), ("A", [⟨"X", "a.T", "x"⟩])] ∧
      (resolveImports [("a", "\"x/y\""), ("b", "\"x/y\"")]
        [("A", [⟨"X", "a.T", "x"⟩]), ("B", [⟨"Y", "b.T", "y"⟩])]).2 =
        [⟨"", "\"encoding/json\""⟩, ⟨"", "\"errors\""⟩, ⟨"", "\"strconv\""⟩,
          ⟨"a", "\"x/y\""⟩, ⟨"b", "\"x/y\""⟩] ∧
      (resolveImports [("a", "\"x/y\""), ("b", "\"x/y\"")]
        [("B", [⟨"Y", "b.T", "y"⟩]), ("A", [⟨"X", "a.T", "x"⟩])]).2 =
        [⟨"", "\"encoding/json\""⟩, ⟨"", "\"errors\""⟩, ⟨"", "\"strconv\""⟩,
          ⟨"b", "\"x/y\""⟩, ⟨"a", "\"x/y\""⟩] :=
  ⟨List.Perm.swap _ _ _, by decide, by decide⟩

/-- C19: an alias `P` (no dot, star or slash in it, and neither `errors` nor `strconv`)
    that the import table maps to the quoted path `p` and that a field of type `P.T` or
    `*P.T` claims has an entry with the path `p` in the resolved import list: with the name
    `""` when `P` is the last segment of `p` without its quotes, with the name `P`
    otherwise. -/
theorem claimed_entry_name (imports : ImportTable) (order : MetaTable) (P T p : String)
    (hP : ∀ c ∈ P.data, c ≠ '.' ∧ c ≠ '*' ∧ c ≠ '/') (hT : '.' ∉ T.data)
    (hget : mapGet imports P = some p) (herrors : P ≠ "errors") (hstrconv : P ≠ "strconv")
    (entry : String × List Meta) (hentry : entry ∈ order) (m : Meta) (hm : m ∈ entry.2)
    (hty : m.fieldType = P ++ "." ++ T ∨ m.fieldType = "*" ++ P ++ "." ++ T) :
    (P = path.Base (strings.Trim p "\"") → (⟨"", p⟩ : Import) ∈ (resolveImports imports order).2) ∧
      (P ≠ path.Base (strings.Trim p "\"") → (⟨P, p⟩ : Import) ∈ (resolveImports imports order).2) := by
  have hdot : '.' ∉ P.data := fun h => (hP _ h).1 rfl
  have hstar : ¬ ("*".data <+: P.data) := by
    rintro ⟨t, ht⟩
    have : '*' ∈ P.data := by rw [← ht]; simp
    exact (hP _ this).2.1 rfl
  have hjson : P ≠ "encoding/json" := by
    intro h
    have : '/' ∈ P.data := by rw [h]; decide
    exact (hP _ this).2.2 rfl
  have hget1 : mapGet (mapDelete (mapDelete (mapDelete imports "encoding/json") "errors") "strconv") P
      = some p := by
    rw [mapGet_mapDelete, if_neg hstrconv, mapGet_mapDelete, if_neg herrors, mapGet_mapDelete,
      if_neg hjson]
    exact hget
  obtain ⟨ks, -, hperm, hmem⟩ := resolve_claimed imports order
  have hin : P ∈ ks := (hmem P).mpr
    ⟨by rw [hget1]; rfl, entry, hentry, m, hm, claimKey_qualified m P T hdot hstar hT hty⟩
  have hentryIn : entryOf (mapDelete (mapDelete (mapDelete imports "encoding/json") "errors")
      "strconv") P ∈ (resolveImports imports order).2 :=
    hperm.mem_iff.mpr (List.mem_append_left _ (List.mem_map_of_mem _ hin))
  simp only [entryOf, hget1, Option.getD_some] at hentryIn
  constructor
  · intro h
    rw [if_pos h] at hentryIn
    exact hentryIn
  · intro h
    rw [if_neg h] at hentryIn
    exact hentryIn

/-- C19 (witness): the import of `example.com/otherpkg` under the key `otherpkg`, the last
    segment of its path, is in the list without a name. -/
theorem claimed_entry_name_witness :
    ("otherpkg" = path.Base (strings.Trim "\"example.com/otherpkg\"" "\"") →
        (⟨"", "\"example.com/otherpkg\""⟩ : Import) ∈
          (resolveImports [("otherpkg", "\"example.com/otherpkg\"")]
            [("Outer", [⟨"Inner", "*otherpkg.Inner", "inner"⟩])]).2) ∧
      ("otherpkg" ≠ path.Base (strings.Trim "\"example.com/otherpkg\"" "\"") →
        (⟨"otherpkg", "\"example.com/otherpkg\""⟩ : Import) ∈
          (resolveImports [("otherpkg", "\"example.com/otherpkg\"")]
            [("Outer", [⟨"Inner", "*otherpkg.Inner", "inner"⟩])]).2) :=
  claimed_entry_name [("otherpkg", "\"example.com/otherpkg\"")]
    [("Outer", [⟨"Inner", "*otherpkg.Inner", "inner"⟩])] "otherpkg" "Inner"
    "\"example.com/otherpkg\"" (by decide) (by decide) rfl (by decide) (by decide)
    ("Outer", [⟨"Inner", "*otherpkg.Inner", "inner"⟩]) (by simp)
    ⟨"Inner", "*otherpkg.Inner", "inner"⟩ (by simp) (Or.inr (by decide))

/-- C20: for a field of declared type `uint`, `uint32` or `float32` the declaration that
    opens the case body has no newline after it, so the statement that parses the value is
    on the line of the declaration. -/
theorem setStrBody_declaration_shares_line :
    setStrBody ⟨"N", "uint", "n"⟩ =
        "\t\tvar u uint\t\tu, err = strconv.ParseUint(value, 10, 64)\n\t\ts.N = uint(u)\n" ∧
      setStrBody ⟨"N", "uint32", "n"⟩ =
        "\t\tvar u uint32\t\tu, err = strconv.ParseUint(value, 10, 32)\n\t\ts.N = uint32(u)\n" ∧
      setStrBody ⟨"N", "float32", "n"⟩ =
        "\t\tvar v float32\t\tv, err = strconv.ParseFloat(value, 32)\n\t\ts.N = float32(v)\n" := by
  decide

end Setstr
